import Mathlib

/-!
# Click counter: the in-memory aggregation engine

A shallow embedding of `internal/service/aggregator.go` (the sharded counter
store, the snapshot/commit cycle of `Run`, and `Stop`), followed by theorems
about it.

Conventions of the embedding:

* `int64` values are integers; where Go arithmetic can wrap (`sh.data[k]++`,
  the `uint64` conversions of `shardIndex`) the wrap is explicit.
* A Go `map[key]int64` is an association list with pairwise distinct keys
  (`AList`); the order of its entries stands for one of the iteration orders
  the Go runtime may choose, so statements about batches are made up to order.
* Mutexes are not modelled: every operation that the source performs under a
  shard lock is one atomic step of the model, and interleavings are sequences
  of such steps.
* A run-time panic (integer division by zero, index out of range, closing a
  closed channel, a slice length that `make` refuses) is the result `none`.
* Time comes in two layers.  `Time` is the instant as an unbounded number of
  nanoseconds, and `bucket`, `rowOf` compute on it without wrap-around; the
  store and the batches are stated over this layer.  `Time64` is the value as
  the library holds it (seconds in an `int64`, nanoseconds apart), with the
  library's own `Truncate`, `Add`, `Unix` and `time.Unix`, which wrap or
  saturate.  The layers agree from Unix second -9223372036854775800 on
  (`bucket64_eq_bucket`, `rowTS64_instant`); below it only `Time64` follows
  the code, and the round trip of the minute bucket is stated on `Time64`.
* `NewAggregator` builds the aggregator that the source returns when
  `make([]shard, shardCount)` succeeds; `NewAggregatorChecked` adds the
  allocation, which panics for lengths the runtime refuses.
-/

namespace ClickCounter

/-! ## The part of Go's `time` package that the aggregator uses -/

/-- The location attached to a `time.Time`; it affects presentation only. -/
inductive Location where
  | UTC
  | Local
  | fixed (offsetSeconds : Int)
deriving DecidableEq, Repr

/-- An instant, counted in nanoseconds since the zero time (January 1, year 1,
00:00:00 UTC), together with a location.  Instants are unbounded integers: this
is the value a `time.Time` denotes, not its 64-bit representation, which is
`Time64`. -/
structure Time where
  ns : Int
  loc : Location
deriving DecidableEq, Repr

/-- Seconds between the zero time and the Unix epoch (`unixToInternal`). -/
def unixToInternal : Int := 62135596800

/-- The duration `time.Second`, in nanoseconds. -/
def Second : Int := 1000000000

/-- The duration `time.Minute`, in nanoseconds. -/
def Minute : Int := 60 * Second

/-- `t.UTC()`: the same instant with the location set to UTC. -/
def Time.UTC (t : Time) : Time := { t with loc := Location.UTC }

/-- `t.Truncate(d)`: `t` rounded down to a multiple of `d` since the zero
time; `t` itself when `d <= 0`. -/
def Time.Truncate (t : Time) (d : Int) : Time :=
  if d ≤ 0 then t else { t with ns := t.ns - t.ns % d }

/-- `t.Unix()` without wrap-around: whole seconds elapsed since January 1, 1970
UTC (rounded down, also before the epoch).  The library computes this
difference in `int64` (`Time64.Unix`); the two agree when it fits. -/
def Time.Unix (t : Time) : Int := t.ns / Second - unixToInternal

/-- `time.Unix(sec, 0)` without wrap-around: the instant `sec` seconds after the
Unix epoch, in the local location.  The library computes the sum in `int64`
(`unixTime64`); the two agree when it fits. -/
def unixTime (sec : Int) : Time :=
  { ns := (sec + unixToInternal) * Second, loc := Location.Local }

/-! ## Machine integers -/

/-- The value of a signed 64-bit result after wrap-around. -/
def wrap64 (x : Int) : Int := (x + 2 ^ 63) % 2 ^ 64 - 2 ^ 63

/-- The conversion `uint64(x)` of an `int64`. -/
def uint64 (x : Int) : Nat := (x % 2 ^ 64).toNat

/-- The values an `int64` can hold. -/
def isInt64 (x : Int) : Prop := -2 ^ 63 ≤ x ∧ x < 2 ^ 63

instance (x : Int) : Decidable (isInt64 x) := by
  unfold isInt64; exact inferInstance

/-! ## Data model -/

/-- The map key: a banner and a minute bucket (Unix minutes). -/
structure key where
  banner : Int
  minute : Int
deriving DecidableEq, Repr

/-- A shard: its `data` map (the mutex is not modelled). -/
abbrev shard := AList (fun _ : key => Int)

/-- One aggregate row handed to the writer. -/
structure AggregateRow where
  BannerID : Int
  TS : Time
  Cnt : Int
deriving DecidableEq, Repr

/-- The aggregator: its shards, its flush interval (nanoseconds) and whether
`stopCh` has been closed.  The logger and the writer are collaborators and are
passed to the operations that use them. -/
structure Aggregator where
  shards : List shard
  flushEvery : Int
  stopClosed : Bool

/-- `NewAggregator(log, w, shardCount, flushEvery)`: the aggregator that the
call returns when it returns.  Whether `make([]shard, shardCount)` succeeds is
decided by `NewAggregatorChecked`. -/
def NewAggregator (shardCount : Int) (flushEvery : Int) : Aggregator :=
  let shardCount := if shardCount ≤ 0 then 1 else shardCount
  let flushEvery := if flushEvery ≤ 0 then Second else flushEvery
  { shards := List.replicate shardCount.toNat (∅ : shard)
    flushEvery := flushEvery
    stopClosed := false }

/-- `minuteUTC(t) = t.UTC().Truncate(time.Minute)`, on instants. -/
def minuteUTC (t : Time) : Time := (t.UTC).Truncate Minute

/-- `bucket(ts) = minuteUTC(ts).Unix() / 60`, with Go's integer division
(truncation toward zero), on instants; `bucket64` is the same function on the
64-bit representation. -/
def bucket (ts : Time) : Int := Int.tdiv (minuteUTC ts).Unix 60

/-- `a.shardIndex(k)`; `none` is the panic of `%` by zero. -/
def shardIndex (a : Aggregator) (k : key) : Option Nat :=
  let x := (uint64 k.banner * 1315423911 % 2 ^ 64) ^^^ uint64 k.minute
  if a.shards.length = 0 then none else some (x % a.shards.length)

/-- The statement `sh.data[k]++`. -/
def incr (sh : shard) (k : key) : shard :=
  sh.insert k (wrap64 ((sh.lookup k).getD 0 + 1))

/-- `a.Inc(bannerID, now)`; `none` is a panic (no shard to index). -/
def Inc (a : Aggregator) (bannerID : Int) (now : Time) : Option Aggregator :=
  let k : key := { banner := bannerID, minute := bucket now }
  match shardIndex a k with
  | none => none
  | some i =>
    match a.shards[i]? with
    | none => none
    | some sh => some { a with shards := a.shards.set i (incr sh k) }

/-- A sequence of `Inc` calls, each given by its banner and its timestamp. -/
def IncAll (calls : List (Int × Time)) (a : Aggregator) : Option Aggregator :=
  calls.foldlM (fun s c => Inc s c.1 c.2) a

/-- The copy of one shard taken under its lock: `nil` for an empty map. -/
def snapshotShard (sh : shard) : Option shard :=
  if sh.entries.length > 0 then some sh else none

/-- The slice `tmp` of per-shard copies. -/
def snapshotShards (shards : List shard) : List (Option shard) :=
  shards.map snapshotShard

/-- The row built from one entry of a snapshot.  The product `k.minute * 60`
and `time.Unix` are taken without wrap-around, which is what the source
computes for every key minute that `bucket` yields from Unix second
-9223372036854775800 on (`rowTS64_instant`). -/
def rowOf (k : key) (v : Int) : AggregateRow :=
  { BannerID := k.banner, TS := (unixTime (k.minute * 60)).UTC, Cnt := v }

/-- The rows of one per-shard copy (`nil` copies are skipped). -/
def rowsOf : Option shard → List AggregateRow
  | none => []
  | some m => m.entries.map (fun e => rowOf e.1 e.2)

/-- The batch appended from all per-shard copies. -/
def batchOf (tmp : List (Option shard)) : List AggregateRow :=
  tmp.flatMap rowsOf

/-- `a.buildBatchSnapshot()`. -/
def buildBatchSnapshot (a : Aggregator) : List AggregateRow :=
  batchOf (snapshotShards a.shards)

/-- The loop `for k := range tmp[i] { delete(sh.data, k) }` on one shard. -/
def deleteKeys (snap : Option shard) (live : shard) : shard :=
  match snap with
  | none => live
  | some m => m.keys.foldl (fun acc k => acc.erase k) live

/-- The commit loop of `Run` over all shards; `tmp` has one copy per shard. -/
def commitShards : List (Option shard) → List shard → List shard
  | t :: ts, sh :: rest => deleteKeys t sh :: commitShards ts rest
  | _, rest => rest

/-- One periodic cycle of `Run` (the body of `case <-t.C`).  `upsert` is the
answer of `writer.UpsertAggregates` (`true` for a nil error); `during` are the
`Inc` calls of other goroutines that land after the snapshot and before the
commit.  The result is the aggregator after the cycle and the batches handed
to the writer. -/
def runCycle (upsert : List AggregateRow → Bool) (during : List (Int × Time))
    (a : Aggregator) : Option (Aggregator × List (List AggregateRow)) :=
  let tmp := snapshotShards a.shards
  let batch := batchOf tmp
  match IncAll during a with
  | none => none
  | some live =>
    if batch.length = 0 then some (live, [])
    else if upsert batch = false then some (live, [batch])
    else some ({ live with shards := commitShards tmp live.shards }, [batch])

/-- `a.Stop(ctx)`: closes `stopCh` (a panic when it is closed already), then
hands a non-empty snapshot batch to the writer and discards the answer.  The
result is the aggregator afterwards and the batches handed to the writer;
`Stop` returns no value to its caller. -/
def Stop (upsert : List AggregateRow → Bool) (a : Aggregator) :
    Option (Aggregator × List (List AggregateRow)) :=
  if a.stopClosed then none
  else
    let snap := buildBatchSnapshot a
    if snap.length > 0 then
      let _ := upsert snap
      some ({ a with stopClosed := true }, [snap])
    else some ({ a with stopClosed := true }, [])

/-- The resident count of key `k` in shard `i` (`none` when absent). -/
def liveCount (a : Aggregator) (i : Nat) (k : key) : Option Int :=
  match a.shards[i]? with
  | none => none
  | some sh => sh.lookup k

/-- The number of calls in `calls` that address key `k`. -/
def callsFor (k : key) (calls : List (Int × Time)) : Nat :=
  calls.countP (fun c => decide (c.1 = k.banner ∧ bucket c.2 = k.minute))

/-- Two instants lie in the same minute of the UTC calendar. -/
def sameUTCMinute (t u : Time) : Prop := t.Unix / 60 = u.Unix / 60

instance (t u : Time) : Decidable (sameUTCMinute t u) := by
  unfold sameUTCMinute; exact inferInstance

/-- The key that `Inc` builds for a call. -/
def callKey (c : Int × Time) : key := { banner := c.1, minute := bucket c.2 }

/-- The distinct keys addressed by a sequence of calls. -/
def distinctKeys (calls : List (Int × Time)) : List key := (calls.map callKey).dedup

/-- Every resident key sits in the shard that the router assigns to it. -/
def WellRouted (a : Aggregator) : Prop :=
  ∀ (i : Nat) (k : key), liveCount a i k ≠ none → shardIndex a k = some i

/-! ## The 64-bit representation of `time.Time` -/

/-- A `time.Time` as the library stores it once a monotonic clock reading is
stripped (which `UTC` does first): the wall seconds since January 1, year 1,
00:00:00 UTC (`ext`, an `int64`), the nanoseconds within the second, and the
location. -/
structure Time64 where
  ext : Int
  nsec : Int
  loc : Location
deriving DecidableEq, Repr

/-- The values the library can hold: `ext` is an `int64`, the nanoseconds lie
in `[0, 999999999]`. -/
def Time64.Valid (t : Time64) : Prop :=
  isInt64 t.ext ∧ 0 ≤ t.nsec ∧ t.nsec < 1000000000

instance (t : Time64) : Decidable t.Valid := by
  unfold Time64.Valid; exact inferInstance

/-- The instant of a `Time64` in the unbounded model `Time`. -/
def Time64.instant (t : Time64) : Time :=
  { ns := t.ext * 1000000000 + t.nsec, loc := t.loc }

/-- `t.UTC()`. -/
def Time64.UTC (t : Time64) : Time64 := { t with loc := Location.UTC }

/-- `addSec` on a time without a monotonic reading: `ext + d` in `int64`,
saturating at either end when the sum overflows. -/
def addSec (ext d : Int) : Int :=
  if decide (wrap64 (ext + d) > ext) = decide (d > 0) then wrap64 (ext + d)
  else if d > 0 then 9223372036854775807
  else -9223372036854775807

/-- `t.Add(d)` for a duration `d` in nanoseconds. -/
def Time64.Add (t : Time64) (d : Int) : Time64 :=
  if t.nsec + Int.tmod d 1000000000 ≥ 1000000000 then
    { t with nsec := t.nsec + Int.tmod d 1000000000 - 1000000000,
             ext := addSec t.ext (Int.tdiv d 1000000000 + 1) }
  else if t.nsec + Int.tmod d 1000000000 < 0 then
    { t with nsec := t.nsec + Int.tmod d 1000000000 + 1000000000,
             ext := addSec t.ext (Int.tdiv d 1000000000 - 1) }
  else
    { t with nsec := t.nsec + Int.tmod d 1000000000,
             ext := addSec t.ext (Int.tdiv d 1000000000) }

/-- The remainder that the library function `div(t, d)` computes for `d > 0`:
it works on the absolute value of the time (negating `ext` in `int64`), takes
the remainder by one of three routes (`d` a divisor of half a second, `d` a
multiple of a second, or 128-bit arithmetic), and turns the remainder of a
negative time into `d - r`. -/
def divRem (t : Time64) (d : Int) : Int :=
  let sec0 := if t.ext < 0 then wrap64 (-t.ext) else t.ext
  let nsec0 := if t.ext < 0 then -t.nsec else t.nsec
  let sec := if t.ext < 0 ∧ nsec0 < 0 then wrap64 (sec0 - 1) else sec0
  let nsec := if t.ext < 0 ∧ nsec0 < 0 then nsec0 + 1000000000 else nsec0
  let r :=
    if d < Second ∧ Int.tmod Second (d + d) = 0 then Int.tmod nsec d
    else if Int.tmod d Second = 0 then Int.tmod sec (Int.tdiv d Second) * Second + nsec
    else ((uint64 sec : Int) * 1000000000 + nsec) % d
  if t.ext < 0 ∧ r ≠ 0 then d - r else r

/-- `t.Truncate(d)`. -/
def Time64.Truncate (t : Time64) (d : Int) : Time64 :=
  if d ≤ 0 then t else t.Add (-(divRem t d))

/-- `t.Unix()`: `ext - unixToInternal` in `int64`. -/
def Time64.Unix (t : Time64) : Int := wrap64 (t.ext - unixToInternal)

/-- `time.Unix(sec, 0)`: `ext = sec + unixToInternal` in `int64`. -/
def unixTime64 (sec : Int) : Time64 :=
  { ext := wrap64 (sec + unixToInternal), nsec := 0, loc := Location.Local }

/-- `minuteUTC(t)` on the 64-bit representation. -/
def minuteUTC64 (t : Time64) : Time64 := (t.UTC).Truncate Minute

/-- `bucket(ts)` on the 64-bit representation. -/
def bucket64 (ts : Time64) : Int := Int.tdiv (minuteUTC64 ts).Unix 60

/-- The `TS` of the row of a key minute, `time.Unix(k.minute*60, 0).UTC()`, on
the 64-bit representation (the product is an `int64`). -/
def rowTS64 (minute : Int) : Time64 := (unixTime64 (wrap64 (minute * 60))).UTC

/-- The earliest time with a Unix second in `int64`, `time.Unix(math.MinInt64, 0)`. -/
def earliestUnix : Time64 := unixTime64 (-9223372036854775808)

/-- Two times lie in the same minute of the UTC calendar. -/
def sameUTCMinute64 (t u : Time64) : Prop := t.ext / 60 = u.ext / 60

/-! ## The allocation of the shard slice -/

/-- The size of a `shard` value in bytes: an 8-byte `sync.Mutex` and a map
pointer. -/
def shardSize : Nat := 16

/-- Whether `make([]shard, n)` accepts the length `n`.  `maxAlloc` is the
largest allocation in bytes that the runtime grants (2^48 on linux/amd64, less
where memory is short); a negative length, a size that overflows the 64-bit
`uintptr`, and a size beyond `maxAlloc` stop the call
(`makeslice: len out of range`, or the allocator running out of memory). -/
def makesliceOK (maxAlloc : Nat) (n : Int) : Bool :=
  decide (0 ≤ n ∧ shardSize * n.toNat < 18446744073709551616 ∧ shardSize * n.toNat ≤ maxAlloc)

/-- `NewAggregator(log, w, shardCount, flushEvery)` with the allocation of the
shard slice made explicit: `none` is the call stopped inside `make`, and a
successful call returns `NewAggregator shardCount flushEvery`. -/
def NewAggregatorChecked (maxAlloc : Nat) (shardCount flushEvery : Int) : Option Aggregator :=
  if makesliceOK maxAlloc (if shardCount ≤ 0 then 1 else shardCount) then
    some (NewAggregator shardCount flushEvery)
  else none

/-! ## Configuration (`pkg/config`) -/

/-- The largest `int` (the platform `int` has 64 bits). -/
def maxInt : Int := 9223372036854775807

/-- The smallest `int`. -/
def minInt : Int := -9223372036854775808

/-- The number written by a non-empty run of ASCII digits; `none` for the empty
run and for a run with any other character. -/
def parseDigits (cs : List Char) : Option Nat :=
  if cs = [] then none
  else cs.foldlM (fun acc c => if c.isDigit then some (acc * 10 + (c.toNat - 48)) else none) 0

/-- The integer a string denotes in the syntax `strconv.Atoi` accepts (an
optional sign and decimal digits); `none` is a syntax error. -/
def intSyntax (s : String) : Option Int :=
  match s.toList with
  | '-' :: cs => (parseDigits cs).map (fun n => -(n : Int))
  | '+' :: cs => (parseDigits cs).map (fun n => (n : Int))
  | cs => (parseDigits cs).map (fun n => (n : Int))

/-- The two kinds of error of `strconv` (`ErrSyntax`, `ErrRange`). -/
inductive NumError where
  | ErrSyntax
  | ErrRange
deriving DecidableEq, Repr

/-- The value of an ASCII digit. -/
def digitOf (c : Char) : Nat := c.toNat - 48

/-- The digit loop of `strconv.ParseUint(s, 10, 64)`, from the accumulated
value `n` on.  The characters are read from the left: a character that is not a
digit ends the loop with 0 and `ErrSyntax`; a digit that takes the value beyond
2^64 - 1 ends it with 2^64 - 1 and `ErrRange`, whatever follows. -/
def uintLoop : List Char → Nat → Nat × Option NumError
  | [], n => (n, none)
  | c :: cs, n =>
    if c.isDigit then
      if 18446744073709551616 ≤ n * 10 + digitOf c then
        (18446744073709551615, some NumError.ErrRange)
      else uintLoop cs (n * 10 + digitOf c)
    else (0, some NumError.ErrSyntax)

/-- `strconv.ParseUint(s, 10, 64)` on the characters of `s`. -/
def ParseUint (cs : List Char) : Nat × Option NumError :=
  if cs = [] then (0, some NumError.ErrSyntax) else uintLoop cs 0

/-- The leading sign that `strconv.ParseInt` picks off: whether it is a minus,
and the rest of the string. -/
def splitSign : List Char → Bool × List Char
  | '+' :: cs => (false, cs)
  | '-' :: cs => (true, cs)
  | cs => (false, cs)

/-- The range check of `strconv.ParseInt` on the unsigned value: a syntax
error gives 0, a value beyond the range of `int64` gives the nearest `int64`
with `ErrRange`. -/
def signedResult (neg : Bool) (r : Nat × Option NumError) : Int × Option NumError :=
  match r with
  | (_, some NumError.ErrSyntax) => (0, some NumError.ErrSyntax)
  | (un, _) =>
    if neg = false ∧ 9223372036854775808 ≤ un then (maxInt, some NumError.ErrRange)
    else if neg = true ∧ 9223372036854775808 < un then (minInt, some NumError.ErrRange)
    else (if neg then -(un : Int) else (un : Int), none)

/-- `strconv.ParseInt(s, 10, 0)` on a platform with 64-bit `int`. -/
def ParseInt (s : String) : Int × Option NumError :=
  if s.toList = [] then (0, some NumError.ErrSyntax)
  else signedResult (splitSign s.toList).1 (ParseUint (splitSign s.toList).2)

/-- `strconv.Atoi(s)`: the value and the error.  It is `ParseInt(s, 10, 0)`
converted to `int`; the fast path of the library for strings shorter than 19
bytes computes the same result. -/
def Atoi (s : String) : Int × Option NumError := ParseInt s

/-- The parsed configuration. Durations are in nanoseconds. -/
structure Config where
  ListenAddr : String
  DatabaseURL : String
  LogLevel : String
  FlushEvery : Int
  Shards : Int
  MaxCPU : Int
  ReadMaxRangeDays : Int
  ShutdownWait : Int
deriving DecidableEq, Repr

/-- `getenv(k, def)` over an environment; `os.Getenv` gives the empty string
for a variable that is not set. -/
def getenv (env : String → Option String) (k : String) (d : String) : String :=
  if (env k).getD "" ≠ "" then (env k).getD "" else d

/-- `mustInt(s)`: the value of `strconv.Atoi`, its error dropped. -/
def mustInt (s : String) : Int := (Atoi s).1

/-- `mustDuration(s)`; `ParseDuration` stands for `time.ParseDuration` with
its error dropped (the library gives the duration 0 with every error). -/
def mustDuration (ParseDuration : String → Int) (s : String) : Int :=
  let d := ParseDuration s
  if d ≤ 0 then Second else d

/-- `joinErrs(errs)`: the messages joined by a semicolon and a blank. -/
def joinErrs (errs : List String) : String :=
  errs.enum.foldl (fun msg ie => (if ie.1 > 0 then msg ++ "; " else msg) ++ ie.2) ""

/-- `config.Parse()` over an environment, with `time.ParseDuration` as a
parameter.  An error carries the joined messages. -/
def Parse (ParseDuration : String → Int) (env : String → Option String) :
    Except String Config :=
  let c : Config :=
    { ListenAddr := getenv env "LISTEN_ADDR" ":3000"
      DatabaseURL := getenv env "DATABASE_URL" ""
      LogLevel := getenv env "LOG_LEVEL" "info"
      FlushEvery := mustDuration ParseDuration (getenv env "FLUSH_EVERY" "1s")
      Shards := mustInt (getenv env "SHARDS" "64")
      MaxCPU := mustInt (getenv env "MAX_CPU" "0")
      ReadMaxRangeDays := mustInt (getenv env "READ_MAX_RANGE_DAYS" "90")
      ShutdownWait := mustDuration ParseDuration (getenv env "SHUTDOWN_WAIT" "5s") }
  let errs : List String :=
    (if c.DatabaseURL = "" then ["DATABASE_URL is required"] else [])
    ++ (if c.Shards ≤ 0 then ["SHARDS must be > 0"] else [])
    ++ (if c.ReadMaxRangeDays < 0 then ["READ_MAX_RANGE_DAYS must be >= 0"] else [])
  if errs.length > 0 then Except.error (joinErrs errs) else Except.ok c

/-- The number written by a run of digits (0 for the empty run). -/
def digitsValue (ds : List Char) : Nat :=
  ds.foldl (fun acc c => acc * 10 + digitOf c) 0

/-- The integer that a configuration string is read as.  After an optional
sign: when the leading digits already exceed 2^64 - 1, the largest `int` (the
smallest after a minus), whatever follows them; otherwise 0 when the string is
not a number; otherwise the number, or the nearest `int` when it is out of
range. -/
def intReading (s : String) : Int :=
  let neg := (splitSign s.toList).1
  let body := (splitSign s.toList).2
  let run := body.takeWhile Char.isDigit
  if 18446744073709551616 ≤ digitsValue run then (if neg then minInt else maxInt)
  else if body = [] ∨ run ≠ body then 0
  else if neg then max minInt (-(digitsValue run : Int))
  else min maxInt (digitsValue run : Int)

/-- An environment with a database URL and a `SHARDS` value that is not a
number but starts with digits beyond 2^64 - 1. -/
def overflowEnv (k : String) : Option String :=
  if k = "DATABASE_URL" then some "postgres://u:p@h:5432/db?sslmode=disable"
  else if k = "SHARDS" then some "99999999999999999999x"
  else none

/-- A variable is not set, or set to the empty string. -/
def unsetOrEmpty (env : String → Option String) (k : String) : Prop :=
  env k = none ∨ env k = some ""

instance (env : String → Option String) (k : String) : Decidable (unsetOrEmpty env k) := by
  unfold unsetOrEmpty; exact inferInstance

/-- The string in force for a variable: its value when it is set and not
empty, the default otherwise. -/
def setting (env : String → Option String) (k : String) (d : String) : String :=
  match env k with
  | none => d
  | some v => if v = "" then d else v

/-- The configuration that `Parse` assembles before it validates. -/
def rawConfig (ParseDuration : String → Int) (env : String → Option String) : Config :=
  { ListenAddr := setting env "LISTEN_ADDR" ":3000"
    DatabaseURL := setting env "DATABASE_URL" ""
    LogLevel := setting env "LOG_LEVEL" "info"
    FlushEvery := mustDuration ParseDuration (setting env "FLUSH_EVERY" "1s")
    Shards := mustInt (setting env "SHARDS" "64")
    MaxCPU := mustInt (setting env "MAX_CPU" "0")
    ReadMaxRangeDays := mustInt (setting env "READ_MAX_RANGE_DAYS" "90")
    ShutdownWait := mustDuration ParseDuration (setting env "SHUTDOWN_WAIT" "5s") }

/-- A duration parser for the strings `<digits>s` and `<digits>ms`, giving 0
for every other string; it agrees with `time.ParseDuration` on those strings
as long as the result fits 64 bits. -/
def secondsDuration (s : String) : Int :=
  match s.toList.reverse with
  | 's' :: 'm' :: ds => ((parseDigits ds.reverse).getD 0 : Nat) * 1000000
  | 's' :: ds => ((parseDigits ds.reverse).getD 0 : Nat) * 1000000000
  | _ => 0

/-- The environment of the package test `TestParse_CustomValues`. -/
def customEnv (k : String) : Option String :=
  if k = "DATABASE_URL" then some "postgres://u:p@h:5432/db?sslmode=disable"
  else if k = "LISTEN_ADDR" then some ":8080"
  else if k = "LOG_LEVEL" then some "debug"
  else if k = "FLUSH_EVERY" then some "250ms"
  else if k = "SHARDS" then some "128"
  else if k = "MAX_CPU" then some "4"
  else if k = "READ_MAX_RANGE_DAYS" then some "7"
  else if k = "SHUTDOWN_WAIT" then some "2s"
  else none

/-- An environment that sets `DATABASE_URL` only. -/
def minimalEnv (k : String) : Option String :=
  if k = "DATABASE_URL" then some "postgres://u:p@h:5432/db?sslmode=disable" else none

/-! ## Histories of the aggregator -/

/-- One step of a history: an `Inc` call, one periodic cycle of `Run` (with the
answer of the writer and the `Inc` calls that land between its snapshot and its
commit), or a call of `Stop` (with the answer of the writer). -/
inductive Event where
  | inc (bannerID : Int) (now : Time)
  | tick (upsert : List AggregateRow → Bool) (during : List (Int × Time))
  | stop (upsert : List AggregateRow → Bool)

/-- The aggregator together with the batches that the writer has accepted. -/
structure World where
  agg : Aggregator
  accepted : List (List AggregateRow)

/-- The effect of one step; `none` is a panic. -/
def applyEvent (w : World) : Event → Option World
  | Event.inc b t =>
    match Inc w.agg b t with
    | none => none
    | some a => some { w with agg := a }
  | Event.tick upsert during =>
    match runCycle upsert during w.agg with
    | none => none
    | some (a, calls) =>
      some { agg := a, accepted := w.accepted ++ calls.filter (fun b => upsert b) }
  | Event.stop upsert =>
    match Stop upsert w.agg with
    | none => none
    | some (a, calls) =>
      some { agg := a, accepted := w.accepted ++ calls.filter (fun b => upsert b) }

/-- The effect of a history. -/
def runEvents (es : List Event) (w : World) : Option World :=
  es.foldlM applyEvent w

/-- A freshly constructed aggregator, nothing written yet. -/
def freshWorld (shardCount flushEvery : Int) : World :=
  { agg := NewAggregator shardCount flushEvery, accepted := [] }

/-- The `Inc` calls of a history, in order. -/
def incsOf (es : List Event) : List (Int × Time) :=
  es.flatMap (fun e =>
    match e with
    | Event.inc b t => [(b, t)]
    | Event.tick _ during => during
    | Event.stop _ => [])

/-- A history of `Inc` calls and whole cycles only: no `Inc` lands inside a
cycle, and `Stop` is not called. -/
def NotInterleaved (es : List Event) : Prop :=
  ∀ e ∈ es,
    match e with
    | Event.inc _ _ => True
    | Event.tick _ during => during = []
    | Event.stop _ => False

/-- The `(BannerID, TS)` pair of a row. -/
def rowKey (r : AggregateRow) : Int × Time := (r.BannerID, r.TS)

/-- The sum of the counts that the rows of key `k` carry in a list of batches. -/
def acceptedFor (k : key) (batches : List (List AggregateRow)) : Int :=
  ((batches.flatten.filter (fun r => decide (rowKey r = rowKey (rowOf k 0)))).map
    (fun r => r.Cnt)).sum

/-- The resident count of a key: its count in the shard the router assigns to
it, 0 when it is absent there. -/
def residentCount (a : Aggregator) (k : key) : Int :=
  match shardIndex a k with
  | none => 0
  | some j => (liveCount a j k).getD 0

/-- The bookkeeping invariant of a history whose `Inc` calls so far are `incs`:
the store has a shard and is well routed, for every key the accepted counts
plus the resident count make up the calls for it, and every resident count is
at least 1 and at most the number of calls for its key. -/
def Conserved (w : World) (incs : List (Int × Time)) : Prop :=
  w.agg.shards ≠ [] ∧ WellRouted w.agg ∧
  (∀ k : key, acceptedFor k w.accepted + residentCount w.agg k = callsFor k incs) ∧
  (∀ (i : Nat) (k : key) (v : Int), liveCount w.agg i k = some v →
    1 ≤ v ∧ v ≤ callsFor k incs)

/-! ## Sample values -/

/-- The instant 2025-10-19 00:29:42 UTC, used by the tests of the package. -/
def sampleNow : Time := { ns := 63896430582000000000, loc := Location.UTC }

/-- The key of banner 1 in the minute of `sampleNow`. -/
def sampleKey : key := { banner := 1, minute := 29347229 }

/-- A one-shard aggregator holding `sampleKey` with count `v`. -/
def sampleStore (v : Int) : Aggregator :=
  { shards := [AList.singleton sampleKey v], flushEvery := Second, stopClosed := false }

/-- A sample history: a click, a failed cycle with a click of another banner
inside, a successful cycle with a click inside, a click, and `Stop`. -/
def sampleHistory : List Event :=
  [Event.inc 1 sampleNow,
   Event.tick (fun _ => false) [(2, sampleNow)],
   Event.tick (fun _ => true) [(3, sampleNow)],
   Event.inc 1 sampleNow,
   Event.stop (fun _ => true)]

/-- The world that `sampleHistory` leads to on four shards. -/
def sampleFinal : World :=
  match runEvents sampleHistory (freshWorld 4 Second) with
  | some w => w
  | none => freshWorld 4 Second

/-- A sample history without interleaving: two clicks, a failed cycle, a
click, a successful cycle, a click. -/
def sampleQuietHistory : List Event :=
  [Event.inc 1 sampleNow,
   Event.inc 1 sampleNow,
   Event.tick (fun _ => false) [],
   Event.inc 2 sampleNow,
   Event.tick (fun _ => true) [],
   Event.inc 1 sampleNow]

/-! ## Arithmetic of the minute bucket -/

theorem minuteUTC_ns (t : Time) : (minuteUTC t).ns = t.ns - t.ns % 60000000000 := by
  simp [minuteUTC, Time.Truncate, Time.UTC, Minute, Second]

theorem minuteUTC_loc (t : Time) : (minuteUTC t).loc = Location.UTC := by
  simp [minuteUTC, Time.Truncate, Time.UTC, Minute, Second]

theorem minuteUTC_Unix_dvd (t : Time) : (60 : Int) ∣ (minuteUTC t).Unix := by
  unfold Time.Unix
  rw [minuteUTC_ns]
  simp only [Second, unixToInternal]
  omega

/-- The truncating division of `bucket` is exact, so `bucket` is the floor of
the Unix second divided by sixty. -/
theorem bucket_eq_floor (t : Time) : bucket t = t.Unix / 60 := by
  unfold bucket
  rw [Int.tdiv_eq_ediv_of_dvd (minuteUTC_Unix_dvd t)]
  unfold Time.Unix
  rw [minuteUTC_ns]
  simp only [Second, unixToInternal]
  omega

theorem bucket_mul_sixty (t : Time) :
    (bucket t * 60 + unixToInternal) * Second = t.ns - t.ns % 60000000000 := by
  rw [bucket_eq_floor]
  simp only [Time.Unix, Second, unixToInternal]
  omega

theorem rowOf_TS_inj (k k' : key) (v v' : Int) (h : (rowOf k v).TS = (rowOf k' v').TS) :
    k.minute = k'.minute := by
  simp only [rowOf, unixTime, Time.UTC, Second, unixToInternal, Time.mk.injEq, and_true] at h
  omega

/-! ## The shard router and `Inc` -/

theorem shardIndex_eq (a : Aggregator) (k : key) (h : a.shards ≠ []) :
    shardIndex a k
      = some (((uint64 k.banner * 1315423911 % 2 ^ 64) ^^^ uint64 k.minute)
          % a.shards.length) := by
  have hl : a.shards.length ≠ 0 := by
    intro h0; exact h (List.length_eq_zero.mp h0)
  simp [shardIndex, hl]

theorem shardIndex_lt (a : Aggregator) (k : key) (i : Nat) (h : shardIndex a k = some i) :
    i < a.shards.length := by
  unfold shardIndex at h
  split_ifs at h with h0
  simp only [Option.some.injEq] at h
  rw [← h]
  exact Nat.mod_lt _ (Nat.pos_of_ne_zero h0)

theorem shardIndex_congr (a b : Aggregator) (k : key)
    (h : a.shards.length = b.shards.length) : shardIndex a k = shardIndex b k := by
  simp [shardIndex, h]

theorem NewAggregator_shards_empty (shardCount flushEvery : Int) :
    ∀ sh ∈ (NewAggregator shardCount flushEvery).shards, sh.entries = [] := by
  intro sh hsh
  simp only [NewAggregator] at hsh
  rw [List.eq_of_mem_replicate hsh]
  rfl

theorem NewAggregator_shards_ne (shardCount flushEvery : Int) :
    (NewAggregator shardCount flushEvery).shards ≠ [] := by
  intro h
  have h1 := congrArg List.length h
  simp only [NewAggregator, List.length_replicate, List.length_nil] at h1
  split_ifs at h1 <;> omega

theorem Inc_eq (a : Aggregator) (b : Int) (t : Time) (h : a.shards ≠ []) :
    ∃ i sh, shardIndex a { banner := b, minute := bucket t } = some i ∧
      a.shards[i]? = some sh ∧
      Inc a b t
        = some { a with shards := a.shards.set i (incr sh { banner := b, minute := bucket t }) } := by
  have hi := shardIndex_eq a { banner := b, minute := bucket t } h
  have hlt := shardIndex_lt a _ _ hi
  refine ⟨_, a.shards[_], hi, List.getElem?_eq_getElem hlt, ?_⟩
  unfold Inc
  simp only [hi, List.getElem?_eq_getElem hlt]

theorem Inc_shards_length (a a' : Aggregator) (b : Int) (t : Time) (h : Inc a b t = some a') :
    a'.shards.length = a.shards.length ∧ a'.flushEvery = a.flushEvery ∧
      a'.stopClosed = a.stopClosed := by
  unfold Inc at h
  dsimp only at h
  split at h
  · cases h
  · split at h
    · cases h
    · simp only [Option.some.injEq] at h
      subst h
      simp

/-- The resident counts after one `Inc`: the addressed key of the addressed
shard is bumped (with wrap-around), everything else is untouched. -/
theorem liveCount_Inc (a a' : Aggregator) (b : Int) (t : Time) (h : Inc a b t = some a')
    (j : Nat) (k : key) :
    liveCount a' j k
      = if shardIndex a { banner := b, minute := bucket t } = some j
            ∧ k = { banner := b, minute := bucket t }
        then some (wrap64 ((liveCount a j k).getD 0 + 1))
        else liveCount a j k := by
  unfold Inc at h
  dsimp only at h
  split at h
  · cases h
  · rename_i i hi
    split at h
    · cases h
    · rename_i sh hsh
      simp only [Option.some.injEq] at h
      subst h
      simp only [liveCount, hi, Option.some.injEq]
      by_cases hij : i = j
      · subst hij
        have hlt := shardIndex_lt a _ _ hi
        simp only [List.getElem?_set_self hlt, hsh, true_and]
        by_cases hk : k = { banner := b, minute := bucket t }
        · subst hk
          simp [incr, AList.lookup_insert]
        · simp [incr, hk, AList.lookup_insert_ne hk]
      · simp [List.getElem?_set_ne hij, hij]

/-! ## Sequences of `Inc` calls -/

theorem wrap64_wrap64_add (x y : Int) : wrap64 (wrap64 x + y) = wrap64 (x + y) := by
  unfold wrap64
  omega

theorem wrap64_of_isInt64 (x : Int) (h : isInt64 x) : wrap64 x = x := by
  unfold isInt64 at h
  unfold wrap64
  omega

theorem IncAll_cons (c : Int × Time) (cs : List (Int × Time)) (a : Aggregator) :
    IncAll (c :: cs) a = (Inc a c.1 c.2).bind (IncAll cs) := by
  simp [IncAll, List.foldlM_cons]

theorem IncAll_frame (calls : List (Int × Time)) (a a' : Aggregator)
    (h : IncAll calls a = some a') :
    a'.shards.length = a.shards.length ∧ a'.flushEvery = a.flushEvery ∧
      a'.stopClosed = a.stopClosed := by
  induction calls generalizing a with
  | nil =>
    simp only [IncAll, List.foldlM_nil, pure, Option.some.injEq] at h
    subst h
    exact ⟨rfl, rfl, rfl⟩
  | cons c cs ih =>
    rw [IncAll_cons] at h
    cases h1 : Inc a c.1 c.2 with
    | none => rw [h1] at h; cases h
    | some a1 =>
      rw [h1] at h
      have hf := Inc_shards_length a a1 c.1 c.2 h1
      have hr := ih a1 h
      exact ⟨hr.1.trans hf.1, hr.2.1.trans hf.2.1, hr.2.2.trans hf.2.2⟩

theorem IncAll_some (calls : List (Int × Time)) (a : Aggregator) (h : a.shards ≠ []) :
    ∃ a', IncAll calls a = some a' := by
  induction calls generalizing a with
  | nil => exact ⟨a, rfl⟩
  | cons c cs ih =>
    obtain ⟨i, sh, -, -, h1⟩ := Inc_eq a c.1 c.2 h
    rw [IncAll_cons, h1]
    apply ih
    intro h0
    have hl := (Inc_shards_length a _ c.1 c.2 h1).1
    rw [h0] at hl
    exact h (List.length_eq_zero.mp hl.symm)

theorem callsFor_cons (k : key) (c : Int × Time) (cs : List (Int × Time)) :
    callsFor k (c :: cs)
      = callsFor k cs + if k = { banner := c.1, minute := bucket c.2 } then 1 else 0 := by
  unfold callsFor
  rw [List.countP_cons]
  congr 1
  cases k with
  | mk kb km =>
    by_cases h : c.1 = kb ∧ bucket c.2 = km
    · obtain ⟨h1, h2⟩ := h
      simp [h1, h2]
    · have : ¬ (kb = c.1 ∧ km = bucket c.2) := fun h3 => h ⟨h3.1.symm, h3.2.symm⟩
      simp [h, this]

/-- The resident counts after a sequence of `Inc` calls: a key that was
addressed `n > 0` times holds, in the shard the router assigns to it, its old
count (0 when absent) plus `n`, wrapped to 64 bits; every other entry of every
shard is untouched. -/
theorem liveCount_IncAll (calls : List (Int × Time)) (a a' : Aggregator)
    (h : IncAll calls a = some a') (j : Nat) (k : key) :
    liveCount a' j k
      = if shardIndex a k = some j ∧ callsFor k calls ≠ 0
        then some (wrap64 ((liveCount a j k).getD 0 + callsFor k calls))
        else liveCount a j k := by
  induction calls generalizing a with
  | nil =>
    simp only [IncAll, List.foldlM_nil, pure, Option.some.injEq] at h
    subst h
    simp [callsFor]
  | cons c cs ih =>
    rw [IncAll_cons] at h
    cases h1 : Inc a c.1 c.2 with
    | none => rw [h1] at h; cases h
    | some a1 =>
      rw [h1] at h
      have hlen := (Inc_shards_length a a1 c.1 c.2 h1).1
      have hidx : shardIndex a1 k = shardIndex a k := shardIndex_congr a1 a k hlen
      rw [ih a1 h, hidx, liveCount_Inc a a1 c.1 c.2 h1 j k, callsFor_cons]
      by_cases hk : k = { banner := c.1, minute := bucket c.2 }
      · subst hk
        by_cases hj : shardIndex a { banner := c.1, minute := bucket c.2 } = some j
        · by_cases hn : callsFor { banner := c.1, minute := bucket c.2 } cs = 0
          · simp [hj, hn]
          · have hn1 : callsFor { banner := c.1, minute := bucket c.2 } cs + 1 ≠ 0 := by omega
            simp only [hj, hn, hn1, and_self, ne_eq, not_false_eq_true, if_true,
              Option.getD_some, true_and]
            rw [wrap64_wrap64_add]
            congr 2
            push_cast
            ring
        · simp [hj]
      · simp [hk]

/-! ## The commit loop -/

theorem lookup_foldl_erase (ks : List key) (m : shard) (k : key) :
    (ks.foldl (fun acc x => acc.erase x) m).lookup k
      = if k ∈ ks then none else m.lookup k := by
  induction ks generalizing m with
  | nil => simp
  | cons x xs ih =>
    rw [List.foldl_cons, ih]
    by_cases hx : k = x
    · subst hx
      simp [AList.lookup_erase]
    · by_cases hxs : k ∈ xs
      · simp [hxs]
      · simp [hxs, hx, AList.lookup_erase_ne hx]

theorem lookup_deleteKeys (s live : shard) (k : key) :
    (deleteKeys (snapshotShard s) live).lookup k
      = if s.lookup k = none then live.lookup k else none := by
  unfold snapshotShard
  split_ifs with h1 h2 h2
  · simp only [deleteKeys]
    rw [lookup_foldl_erase]
    have : k ∉ s.keys := fun hk => (AList.lookup_eq_none.mp h2) (AList.mem_keys.mpr hk)
    simp [this]
  · simp only [deleteKeys]
    rw [lookup_foldl_erase]
    have : k ∈ s.keys := by
      by_contra hk
      exact h2 (AList.lookup_eq_none.mpr (fun hm => hk (AList.mem_keys.mp hm)))
    simp [this]
  · rfl
  · exfalso
    apply h2
    apply AList.lookup_eq_none.mpr
    intro hm
    have hk := AList.mem_keys.mp hm
    have he : s.entries = [] := List.length_eq_zero.mp (by omega)
    simp [AList.keys, he] at hk

/-- The resident counts after the commit loop: an entry is gone exactly when
its key is in the snapshot of its shard, whatever its current count. -/
theorem liveCount_commit (S L : List shard) (hlen : S.length = L.length) (i : Nat) (k : key)
    (fe : Int) (sc : Bool) :
    liveCount { shards := commitShards (snapshotShards S) L, flushEvery := fe, stopClosed := sc }
        i k
      = if liveCount { shards := S, flushEvery := fe, stopClosed := sc } i k = none
        then liveCount { shards := L, flushEvery := fe, stopClosed := sc } i k
        else none := by
  induction S generalizing L i with
  | nil =>
    cases L with
    | nil => simp [liveCount, snapshotShards, commitShards]
    | cons l L => simp at hlen
  | cons s S ih =>
    cases L with
    | nil => simp at hlen
    | cons l L =>
      simp only [List.length_cons, add_left_inj] at hlen
      cases i with
      | zero =>
        simp only [liveCount, snapshotShards, List.map_cons, commitShards,
          List.getElem?_cons_zero]
        exact lookup_deleteKeys s l k
      | succ i =>
        have := ih L hlen i
        simp only [liveCount, snapshotShards, List.map_cons, commitShards,
          List.getElem?_cons_succ] at this ⊢
        exact this

theorem commitShards_length (tmp : List (Option shard)) (L : List shard) :
    (commitShards tmp L).length = L.length := by
  induction tmp generalizing L with
  | nil => cases L <;> simp [commitShards]
  | cons t ts ih =>
    cases L with
    | nil => simp [commitShards]
    | cons l L => simp [commitShards, ih]

/-! ## C7: the shard router -/

/-- C7. For every aggregator built by `NewAggregator` (any shard count, also
zero or negative) and every key, `shardIndex` does not panic and returns
`((uint64(banner) * 1315423911 mod 2^64) XOR uint64(minute)) mod len(shards)`,
which is below `len(shards)`; it is the same for every aggregator with that
number of shards, whatever the shard maps hold; and `Inc` on such an aggregator
never panics. -/
theorem shardIndex_in_range (shardCount flushEvery : Int) (k : key) :
    shardIndex (NewAggregator shardCount flushEvery) k
      = some (((uint64 k.banner * 1315423911 % 2 ^ 64) ^^^ uint64 k.minute)
          % (NewAggregator shardCount flushEvery).shards.length) ∧
    ((uint64 k.banner * 1315423911 % 2 ^ 64) ^^^ uint64 k.minute)
        % (NewAggregator shardCount flushEvery).shards.length
      < (NewAggregator shardCount flushEvery).shards.length ∧
    ∀ a : Aggregator,
      a.shards.length = (NewAggregator shardCount flushEvery).shards.length →
      shardIndex a k = shardIndex (NewAggregator shardCount flushEvery) k ∧
      ∀ (b : Int) (now : Time), ∃ a', Inc a b now = some a' ∧
        a'.shards.length = a.shards.length := by
  have hne := NewAggregator_shards_ne shardCount flushEvery
  have hpos : 0 < (NewAggregator shardCount flushEvery).shards.length :=
    List.length_pos.mpr hne
  refine ⟨shardIndex_eq _ k hne, Nat.mod_lt _ hpos, ?_⟩
  intro a ha
  refine ⟨shardIndex_congr a _ k ha, ?_⟩
  intro b now
  have hane : a.shards ≠ [] := by
    intro h0
    rw [h0] at ha
    simp only [List.length_nil] at ha
    omega
  obtain ⟨i, sh, -, -, h1⟩ := Inc_eq a b now hane
  exact ⟨_, h1, (Inc_shards_length a _ b now h1).1⟩

/-! ## The periodic cycle -/

theorem runCycle_eq (upsert : List AggregateRow → Bool) (during : List (Int × Time))
    (a live : Aggregator) (h : IncAll during a = some live) :
    runCycle upsert during a
      = if (buildBatchSnapshot a).length = 0 then some (live, [])
        else if upsert (buildBatchSnapshot a) = false then some (live, [buildBatchSnapshot a])
        else some ({ live with shards := commitShards (snapshotShards a.shards) live.shards },
          [buildBatchSnapshot a]) := by
  unfold runCycle
  simp only [h]
  rfl

theorem entries_eq_nil_of_lookup (m : shard) (h : ∀ k, m.lookup k = none) : m.entries = [] := by
  cases he : m.entries with
  | nil => rfl
  | cons e es =>
    exfalso
    have hk : e.1 ∈ m.keys := by simp [AList.keys, List.keys, he]
    exact (AList.lookup_eq_none.mp (h e.1)) (AList.mem_keys.mpr hk)

theorem mem_buildBatchSnapshot (a : Aggregator) (r : AggregateRow) :
    r ∈ buildBatchSnapshot a ↔ ∃ i k v, liveCount a i k = some v ∧ r = rowOf k v := by
  unfold buildBatchSnapshot batchOf snapshotShards
  simp only [List.mem_flatMap, List.mem_map]
  constructor
  · rintro ⟨o, ⟨sh, hsh, rfl⟩, hr⟩
    unfold snapshotShard at hr
    split_ifs at hr with h1
    · simp only [rowsOf, List.mem_map] at hr
      obtain ⟨e, he, rfl⟩ := hr
      obtain ⟨i, hi⟩ := List.mem_iff_getElem?.mp hsh
      refine ⟨i, e.1, e.2, ?_, rfl⟩
      simp only [liveCount, hi]
      exact AList.mem_lookup_iff.mpr he
    · simp [rowsOf] at hr
  · rintro ⟨i, k, v, hl, rfl⟩
    unfold liveCount at hl
    split at hl
    · cases hl
    · rename_i sh hsh
      have he : (⟨k, v⟩ : Sigma (fun _ : key => Int)) ∈ sh.entries := AList.mem_lookup_iff.mp hl
      refine ⟨snapshotShard sh, ⟨sh, List.mem_iff_getElem?.mpr ⟨i, hsh⟩, rfl⟩, ?_⟩
      have hpos : sh.entries.length > 0 := List.length_pos_of_mem he
      simp only [snapshotShard, hpos, if_true, rowsOf, List.mem_map]
      exact ⟨⟨k, v⟩, he, rfl⟩

theorem buildBatchSnapshot_eq_nil (a : Aggregator) :
    buildBatchSnapshot a = [] ↔ ∀ sh ∈ a.shards, sh.entries = [] := by
  constructor
  · intro h sh hsh
    apply entries_eq_nil_of_lookup
    intro k
    obtain ⟨i, hi⟩ := List.mem_iff_getElem?.mp hsh
    cases hv : sh.lookup k with
    | none => rfl
    | some v =>
      exfalso
      have : rowOf k v ∈ buildBatchSnapshot a :=
        (mem_buildBatchSnapshot a _).mpr ⟨i, k, v, by simp [liveCount, hi, hv], rfl⟩
      rw [h] at this
      cases this
  · intro h
    apply List.eq_nil_iff_forall_not_mem.mpr
    intro r hr
    obtain ⟨i, k, v, hl, -⟩ := (mem_buildBatchSnapshot a r).mp hr
    unfold liveCount at hl
    split at hl
    · cases hl
    · rename_i sh hsh
      have he := h sh (List.mem_iff_getElem?.mpr ⟨i, hsh⟩)
      have hm : (⟨k, v⟩ : Sigma (fun _ : key => Int)) ∈ sh.entries := AList.mem_lookup_iff.mp hl
      rw [he] at hm
      cases hm

theorem liveCount_committed (a live a' : Aggregator)
    (hlen : a.shards.length = live.shards.length)
    (ha' : a'.shards = commitShards (snapshotShards a.shards) live.shards)
    (i : Nat) (k : key) :
    liveCount a' i k = if liveCount a i k = none then liveCount live i k else none := by
  have h := liveCount_commit a.shards live.shards hlen i k 0 false
  simp only [liveCount] at h ⊢
  rw [ha']
  exact h

theorem liveCount_of_batch_nil (a : Aggregator) (h : buildBatchSnapshot a = [])
    (i : Nat) (k : key) : liveCount a i k = none := by
  cases hv : liveCount a i k with
  | none => rfl
  | some v =>
    exfalso
    have : rowOf k v ∈ buildBatchSnapshot a :=
      (mem_buildBatchSnapshot a _).mpr ⟨i, k, v, hv, rfl⟩
    rw [h] at this
    cases this

theorem entries_nil_of_liveCount (a : Aggregator) (h : ∀ i k, liveCount a i k = none) :
    ∀ sh ∈ a.shards, sh.entries = [] := by
  intro sh hsh
  obtain ⟨i, hi⟩ := List.mem_iff_getElem?.mp hsh
  apply entries_eq_nil_of_lookup
  intro k
  have := h i k
  simpa [liveCount, hi] using this

/-! ## C10: the commit removes snapshotted keys only -/

/-- C10. For every store state with at least one shard, every sequence of
`Inc` calls landing after the snapshot and a writer that accepts the batch, the
cycle completes, and its commit leaves every key that is absent from a shard's
snapshot exactly as the `Inc` calls left it in that shard (same shard, same
count, in particular keys first created after the snapshot), removes from a
shard no key other than keys of that shard's own snapshot, and removes those. -/
theorem commit_frame (upsert : List AggregateRow → Bool) (during : List (Int × Time))
    (a : Aggregator) (hne : a.shards ≠ []) (hok : upsert (buildBatchSnapshot a) = true) :
    ∃ live a' calls, IncAll during a = some live ∧
      runCycle upsert during a = some (a', calls) ∧
      a'.shards.length = live.shards.length ∧
      ∀ (i : Nat) (k : key),
        (liveCount a i k = none → liveCount a' i k = liveCount live i k) ∧
        (liveCount live i k ≠ none → liveCount a' i k = none → liveCount a i k ≠ none) ∧
        (liveCount a i k ≠ none → liveCount a' i k = none) := by
  obtain ⟨live, hlive⟩ := IncAll_some during a hne
  have hrun := runCycle_eq upsert during a live hlive
  by_cases hb : (buildBatchSnapshot a).length = 0
  · rw [if_pos hb] at hrun
    have hnil : buildBatchSnapshot a = [] := List.length_eq_zero.mp hb
    refine ⟨live, live, [], hlive, hrun, rfl, ?_⟩
    intro i k
    have h0 := liveCount_of_batch_nil a hnil i k
    exact ⟨fun _ => rfl, fun h1 h2 => absurd h2 h1, fun h1 => absurd h0 h1⟩
  · rw [if_neg hb, if_neg (by simp [hok])] at hrun
    refine ⟨live, _, _, hlive, hrun, ?_, ?_⟩
    · simp only [commitShards_length]
    · intro i k
      have hlen := (IncAll_frame during a live hlive).1.symm
      have hc := liveCount_committed a live
        { live with shards := commitShards (snapshotShards a.shards) live.shards } hlen rfl i k
      refine ⟨?_, ?_, ?_⟩
      · intro h0; rw [hc, if_pos h0]
      · intro h1 h2 h0
        rw [hc, if_pos h0] at h2
        exact h1 h2
      · intro h1; rw [hc, if_neg h1]

/-- A concrete instance of `commit_frame`: one shard holding `sampleKey`, and
an `Inc` for banner 2 landing during the write. -/
theorem commit_frame_witness :
    ∃ live a' calls, IncAll [(2, sampleNow)] (sampleStore 1) = some live ∧
      runCycle (fun _ => true) [(2, sampleNow)] (sampleStore 1) = some (a', calls) ∧
      a'.shards.length = live.shards.length ∧
      ∀ (i : Nat) (k : key),
        (liveCount (sampleStore 1) i k = none → liveCount a' i k = liveCount live i k) ∧
        (liveCount live i k ≠ none → liveCount a' i k = none →
          liveCount (sampleStore 1) i k ≠ none) ∧
        (liveCount (sampleStore 1) i k ≠ none → liveCount a' i k = none) :=
  commit_frame (fun _ => true) [(2, sampleNow)] (sampleStore 1) (by simp [sampleStore]) rfl

/-! ## C4: a flush with nothing to flush -/

/-- C4. For every store state: a cycle with no `Inc` in it whose writer call
succeeds completes and leaves every shard empty; and when all shards are
empty, a cycle hands nothing to the writer and leaves the state unchanged. -/
theorem flush_leaves_nothing (upsert : List AggregateRow → Bool) (a : Aggregator) :
    (upsert (buildBatchSnapshot a) = true →
      ∃ a' calls, runCycle upsert [] a = some (a', calls) ∧
        ∀ sh ∈ a'.shards, sh.entries = []) ∧
    ((∀ sh ∈ a.shards, sh.entries = []) → runCycle upsert [] a = some (a, [])) := by
  have hrun := runCycle_eq upsert [] a a rfl
  constructor
  · intro hok
    by_cases hb : (buildBatchSnapshot a).length = 0
    · rw [if_pos hb] at hrun
      exact ⟨a, [], hrun, (buildBatchSnapshot_eq_nil a).mp (List.length_eq_zero.mp hb)⟩
    · rw [if_neg hb, if_neg (by simp [hok])] at hrun
      refine ⟨_, _, hrun, ?_⟩
      apply entries_nil_of_liveCount
      intro i k
      rw [liveCount_committed a a _ rfl rfl i k]
      split_ifs with h0
      · exact h0
      · rfl
  · intro hempty
    have hnil := (buildBatchSnapshot_eq_nil a).mpr hempty
    rw [if_pos (by simp [hnil])] at hrun
    exact hrun

/-- A concrete instance of `flush_leaves_nothing`: a store holding one key is
empty after a successful cycle, and a fresh aggregator is left alone. -/
theorem flush_leaves_nothing_witness :
    (∃ a' calls, runCycle (fun _ => true) [] (sampleStore 2) = some (a', calls) ∧
        ∀ sh ∈ a'.shards, sh.entries = []) ∧
    runCycle (fun _ => false) [] (NewAggregator 8 Second)
      = some (NewAggregator 8 Second, []) :=
  ⟨(flush_leaves_nothing (fun _ => true) (sampleStore 2)).1 rfl,
   (flush_leaves_nothing (fun _ => false) (NewAggregator 8 Second)).2
     (NewAggregator_shards_empty 8 Second)⟩

/-! ## C1: increments landing between snapshot and commit -/

/-- C1, evaluated on the code. One shard, one click for `sampleKey` before the
snapshot and one more while the batch is being written: before the commit the
live count is 2 and the snapshot holds 1, so one click should stay resident;
the commit loop deletes the key, and the click is in no batch. -/
theorem lost_update_after_snapshot :
    ∃ a live a',
      IncAll [(1, sampleNow)] (NewAggregator 1 Second) = some a ∧
      buildBatchSnapshot a = [rowOf sampleKey 1] ∧
      IncAll [(1, sampleNow)] a = some live ∧
      liveCount live 0 sampleKey = some 2 ∧
      runCycle (fun _ => true) [(1, sampleNow)] a = some (a', [[rowOf sampleKey 1]]) ∧
      liveCount a' 0 sampleKey = none ∧
      buildBatchSnapshot a' = [] :=
  ⟨_, _, _, rfl, rfl, rfl, rfl, rfl, rfl, rfl⟩

/-! ## C6: errors of the shutdown drain -/

/-- C6, as stated, fails: on a store holding one key with count 5, `Stop` with
a writer that fails and `Stop` with a writer that succeeds have the same
outcome, so the caller of `Stop` cannot tell that the drain failed. -/
theorem Stop_hides_drain_error :
    buildBatchSnapshot (sampleStore 5) = [rowOf sampleKey 5] ∧
    Stop (fun _ => false) (sampleStore 5) = Stop (fun _ => true) (sampleStore 5) :=
  ⟨rfl, rfl⟩

/-- C6, amended. For every store state whose `stopCh` is still open, `Stop`
completes: it closes `stopCh`, leaves the shards untouched and hands the
snapshot batch to the writer once when that batch is non-empty; the answer of
the writer is discarded, so the outcome is the same for every writer. -/
theorem Stop_swallows_drain_error (upsert upsert' : List AggregateRow → Bool)
    (a : Aggregator) (hopen : a.stopClosed = false) :
    Stop upsert a = Stop upsert' a ∧
    ∃ a' calls, Stop upsert a = some (a', calls) ∧
      a'.shards = a.shards ∧ a'.stopClosed = true ∧
      calls = (if (buildBatchSnapshot a).length > 0 then [buildBatchSnapshot a] else []) := by
  refine ⟨rfl, ?_⟩
  unfold Stop
  simp only [hopen, Bool.false_eq_true, if_false]
  split_ifs with h
  · exact ⟨_, _, rfl, rfl, rfl, rfl⟩
  · exact ⟨_, _, rfl, rfl, rfl, rfl⟩

/-- A concrete instance of `Stop_swallows_drain_error`. -/
theorem Stop_swallows_drain_error_witness :
    Stop (fun _ => false) (sampleStore 5) = Stop (fun _ => true) (sampleStore 5) ∧
    ∃ a' calls, Stop (fun _ => false) (sampleStore 5) = some (a', calls) ∧
      a'.shards = (sampleStore 5).shards ∧ a'.stopClosed = true ∧
      calls = (if (buildBatchSnapshot (sampleStore 5)).length > 0
        then [buildBatchSnapshot (sampleStore 5)] else []) :=
  Stop_swallows_drain_error (fun _ => false) (fun _ => true) (sampleStore 5) rfl

/-! ## Routing invariant and rows -/

theorem rowOf_inj (k k' : key) (v v' : Int) (h : rowOf k v = rowOf k' v') :
    k = k' ∧ v = v' := by
  have hm := rowOf_TS_inj k k' v v' (congrArg AggregateRow.TS h)
  have hb : k.banner = k'.banner := congrArg AggregateRow.BannerID h
  have hv : v = v' := congrArg AggregateRow.Cnt h
  cases k; cases k'
  simp only at hm hb
  subst hm hb
  exact ⟨rfl, hv⟩

theorem WellRouted_IncAll (calls : List (Int × Time)) (a a' : Aggregator)
    (h : IncAll calls a = some a') (hwr : WellRouted a) : WellRouted a' := by
  intro i k hk
  rw [shardIndex_congr a' a k (IncAll_frame calls a a' h).1]
  rw [liveCount_IncAll calls a a' h i k] at hk
  split_ifs at hk with hc
  · exact hc.1
  · exact hwr i k hk

theorem WellRouted_NewAggregator (shardCount flushEvery : Int) :
    WellRouted (NewAggregator shardCount flushEvery) := by
  intro i k hk
  exfalso
  apply hk
  apply liveCount_of_batch_nil
  exact (buildBatchSnapshot_eq_nil _).mpr (NewAggregator_shards_empty shardCount flushEvery)

/-- In a well-routed store a row of the batch determines the entry of the
router's shard, and conversely. -/
theorem mem_batch_iff_routed (a : Aggregator) (hwr : WellRouted a) (k : key) (v : Int) :
    rowOf k v ∈ buildBatchSnapshot a
      ↔ ∃ j, shardIndex a k = some j ∧ liveCount a j k = some v := by
  rw [mem_buildBatchSnapshot]
  constructor
  · rintro ⟨i, k', v', hl, hr⟩
    obtain ⟨rfl, rfl⟩ := rowOf_inj k k' v v' hr
    exact ⟨i, hwr i k (by simp [hl]), hl⟩
  · rintro ⟨j, -, hl⟩
    exact ⟨j, k, v, hl, rfl⟩

/-- The count of a batch row after further `Inc` calls, while the sum fits an
`int64`: the row of key `k` with count `c` becomes the only row of `k`, with
count `c` plus the number of calls for `k`. -/
theorem batch_row_after_IncAll (a a1 : Aggregator) (hwr : WellRouted a)
    (calls : List (Int × Time)) (h : IncAll calls a = some a1) (k : key) (c : Int)
    (hrow : rowOf k c ∈ buildBatchSnapshot a) (hsum : isInt64 (c + callsFor k calls)) :
    rowOf k (c + callsFor k calls) ∈ buildBatchSnapshot a1 ∧
    ∀ c', rowOf k c' ∈ buildBatchSnapshot a1 → c' = c + callsFor k calls := by
  have hwr1 := WellRouted_IncAll calls a a1 h hwr
  have hidx := shardIndex_congr a1 a k (IncAll_frame calls a a1 h).1
  obtain ⟨j, hj, hl⟩ := (mem_batch_iff_routed a hwr k c).mp hrow
  have hl1 : liveCount a1 j k = some (c + callsFor k calls) := by
    rw [liveCount_IncAll calls a a1 h j k, hl]
    by_cases hn : callsFor k calls = 0
    · simp [hn]
    · simp only [hj, hn, ne_eq, not_false_eq_true, and_self, if_true, Option.getD_some]
      rw [wrap64_of_isInt64 _ hsum]
  refine ⟨(mem_batch_iff_routed a1 hwr1 k _).mpr ⟨j, hidx.trans hj, hl1⟩, ?_⟩
  intro c' hc'
  obtain ⟨j', hj', hl'⟩ := (mem_batch_iff_routed a1 hwr1 k c').mp hc'
  rw [hidx, hj] at hj'
  simp only [Option.some.injEq] at hj'
  subst hj'
  rw [hl1] at hl'
  simp only [Option.some.injEq] at hl'
  exact hl'.symm

theorem WellRouted_sampleStore (v : Int) : WellRouted (sampleStore v) := by
  intro i k hk
  cases i with
  | zero =>
    rw [shardIndex_eq _ k (by simp [sampleStore])]
    simp [sampleStore, Nat.mod_one]
  | succ i => exact absurd rfl hk

/-! ## C2: a failed write keeps the state -/

/-- C2, as stated, fails at the top of the counter range: with a resident
count of 2^63 - 1, a failed cycle hands that count to the writer and keeps the
state, and after one more `Inc` for the key the next batch carries the wrapped
count -2^63, not the failed count plus one. -/
theorem retry_count_wraps :
    runCycle (fun _ => false) [] (sampleStore 9223372036854775807)
      = some (sampleStore 9223372036854775807, [[rowOf sampleKey 9223372036854775807]]) ∧
    callsFor sampleKey [(1, sampleNow)] = 1 ∧
    ∃ a1, IncAll [(1, sampleNow)] (sampleStore 9223372036854775807) = some a1 ∧
      buildBatchSnapshot a1 = [rowOf sampleKey (-9223372036854775808)] :=
  ⟨rfl, rfl, _, rfl, rfl⟩

/-- C2, amended. For every store state, a cycle whose writer call fails
completes and leaves the aggregator exactly as it was, and a next cycle with no
`Inc` in between hands the writer the same records.  When the store has at
least one shard and every key is resident in the shard the router assigns to
it, then after further `Inc` calls a key whose failed row had count `c` has
exactly one row in the next batch, with count `c` plus the number of new calls
for that key, provided that sum still fits an `int64`. -/
theorem failure_retains_state (upsert : List AggregateRow → Bool) (a : Aggregator)
    (hfail : upsert (buildBatchSnapshot a) = false) :
    (∃ calls1, runCycle upsert [] a = some (a, calls1) ∧
      calls1 = (if (buildBatchSnapshot a).length = 0 then [] else [buildBatchSnapshot a]) ∧
      ∀ upsert' : List AggregateRow → Bool, ∃ a2 calls2,
        runCycle upsert' [] a = some (a2, calls2) ∧ List.Forall₂ List.Perm calls2 calls1) ∧
    (a.shards ≠ [] → WellRouted a →
      ∀ between : List (Int × Time), ∃ a1, IncAll between a = some a1 ∧
        (∀ upsert' : List AggregateRow → Bool, ∃ a2,
          runCycle upsert' [] a1
            = some (a2, if (buildBatchSnapshot a1).length = 0 then []
                else [buildBatchSnapshot a1])) ∧
        ∀ (k : key) (c : Int), rowOf k c ∈ buildBatchSnapshot a →
          isInt64 (c + callsFor k between) →
          rowOf k (c + callsFor k between) ∈ buildBatchSnapshot a1 ∧
          ∀ c', rowOf k c' ∈ buildBatchSnapshot a1 → c' = c + callsFor k between) := by
  have next : ∀ (s : Aggregator) (upsert' : List AggregateRow → Bool), ∃ a2,
      runCycle upsert' [] s
        = some (a2, if (buildBatchSnapshot s).length = 0 then []
            else [buildBatchSnapshot s]) := by
    intro s upsert'
    rw [runCycle_eq upsert' [] s s rfl]
    by_cases hb : (buildBatchSnapshot s).length = 0
    · exact ⟨s, by simp only [hb, if_true]⟩
    · by_cases hu : upsert' (buildBatchSnapshot s) = false
      · exact ⟨s, by simp only [hb, hu, if_false, if_true]⟩
      · rw [if_neg hb, if_neg hu, if_neg hb]
        exact ⟨_, rfl⟩
  constructor
  · refine ⟨_, ?_, rfl, ?_⟩
    · rw [runCycle_eq upsert [] a a rfl]
      by_cases hb : (buildBatchSnapshot a).length = 0
      · simp only [hb, if_true]
      · simp only [hb, hfail, if_false, if_true]
    · intro upsert'
      obtain ⟨a2, h2⟩ := next a upsert'
      refine ⟨a2, _, h2, ?_⟩
      split_ifs
      · exact List.Forall₂.nil
      · exact List.Forall₂.cons (List.Perm.refl _) List.Forall₂.nil
  · intro hne hwr between
    obtain ⟨a1, h1⟩ := IncAll_some between a hne
    refine ⟨a1, h1, next a1, ?_⟩
    intro k c hrow hsum
    exact batch_row_after_IncAll a a1 hwr between h1 k c hrow hsum

/-- A concrete instance of `failure_retains_state`: one shard holding
`sampleKey` with count 5 and a writer that fails. -/
theorem failure_retains_state_witness :
    (∃ calls1, runCycle (fun _ => false) [] (sampleStore 5) = some (sampleStore 5, calls1) ∧
      calls1 = (if (buildBatchSnapshot (sampleStore 5)).length = 0 then []
        else [buildBatchSnapshot (sampleStore 5)]) ∧
      ∀ upsert' : List AggregateRow → Bool, ∃ a2 calls2,
        runCycle upsert' [] (sampleStore 5) = some (a2, calls2) ∧
          List.Forall₂ List.Perm calls2 calls1) ∧
    ∀ between : List (Int × Time), ∃ a1, IncAll between (sampleStore 5) = some a1 ∧
      (∀ upsert' : List AggregateRow → Bool, ∃ a2,
        runCycle upsert' [] a1
          = some (a2, if (buildBatchSnapshot a1).length = 0 then []
              else [buildBatchSnapshot a1])) ∧
      ∀ (k : key) (c : Int), rowOf k c ∈ buildBatchSnapshot (sampleStore 5) →
        isInt64 (c + callsFor k between) →
        rowOf k (c + callsFor k between) ∈ buildBatchSnapshot a1 ∧
        ∀ c', rowOf k c' ∈ buildBatchSnapshot a1 → c' = c + callsFor k between :=
  ⟨(failure_retains_state (fun _ => false) (sampleStore 5) rfl).1,
   (failure_retains_state (fun _ => false) (sampleStore 5) rfl).2
     (by simp [sampleStore]) (WellRouted_sampleStore 5)⟩

/-! ## Batches of well-routed stores -/

theorem rowsOf_nodup (sh : shard) : (rowsOf (snapshotShard sh)).Nodup := by
  unfold snapshotShard
  split_ifs
  · simp only [rowsOf]
    apply List.Nodup.map_on _ sh.nodupKeys.nodup
    intro x _ y _ hxy
    obtain ⟨hk, hv⟩ := rowOf_inj x.1 y.1 x.2 y.2 hxy
    cases x; cases y
    simp only at hk hv
    subst hk hv
    rfl
  · simp [rowsOf]

theorem mem_rowsOf (a : Aggregator) (i : Nat) (sh : shard) (hi : a.shards[i]? = some sh)
    (r : AggregateRow) (hr : r ∈ rowsOf (snapshotShard sh)) :
    ∃ k v, liveCount a i k = some v ∧ r = rowOf k v := by
  unfold snapshotShard at hr
  split_ifs at hr
  · simp only [rowsOf, List.mem_map] at hr
    obtain ⟨e, he, rfl⟩ := hr
    refine ⟨e.1, e.2, ?_, rfl⟩
    simp only [liveCount, hi]
    exact AList.mem_lookup_iff.mpr he
  · simp [rowsOf] at hr

/-- In a well-routed store no row occurs twice in the batch. -/
theorem buildBatchSnapshot_nodup (a : Aggregator) (hwr : WellRouted a) :
    (buildBatchSnapshot a).Nodup := by
  unfold buildBatchSnapshot batchOf snapshotShards
  rw [List.flatMap_map]
  rw [List.nodup_flatMap]
  refine ⟨fun sh _ => rowsOf_nodup sh, ?_⟩
  rw [List.pairwise_iff_getElem]
  intro i j hi hj hij
  simp only [Function.onFun]
  rw [List.disjoint_left]
  intro r hri hrj
  obtain ⟨k, v, hl, rfl⟩ := mem_rowsOf a i _ (List.getElem?_eq_getElem hi) r hri
  obtain ⟨k', v', hl', hr'⟩ := mem_rowsOf a j _ (List.getElem?_eq_getElem hj) _ hrj
  obtain ⟨rfl, rfl⟩ := rowOf_inj k k' v v' hr'
  have h1 := hwr i k (by simp [hl])
  have h2 := hwr j k (by simp [hl'])
  rw [h1] at h2
  simp only [Option.some.injEq] at h2
  omega

/-- In a well-routed store every key has at most one row in the batch. -/
theorem batch_row_unique (a : Aggregator) (hwr : WellRouted a) (k : key) (v v' : Int)
    (h : rowOf k v ∈ buildBatchSnapshot a) (h' : rowOf k v' ∈ buildBatchSnapshot a) :
    v = v' := by
  obtain ⟨j, hj, hl⟩ := (mem_batch_iff_routed a hwr k v).mp h
  obtain ⟨j', hj', hl'⟩ := (mem_batch_iff_routed a hwr k v').mp h'
  rw [hj] at hj'
  simp only [Option.some.injEq] at hj'
  subst hj'
  rw [hl] at hl'
  simpa using hl'

/-! ## Stores built by `Inc` calls alone -/

theorem callsFor_ne_zero_iff (k : key) (calls : List (Int × Time)) :
    callsFor k calls ≠ 0 ↔ k ∈ distinctKeys calls := by
  unfold callsFor distinctKeys
  rw [List.mem_dedup, List.mem_map, ← Nat.pos_iff_ne_zero, List.countP_pos_iff]
  constructor
  · rintro ⟨c, hc, hp⟩
    simp only [decide_eq_true_eq] at hp
    refine ⟨c, hc, ?_⟩
    cases k
    simp only [callKey, key.mk.injEq]
    exact hp
  · rintro ⟨c, hc, rfl⟩
    exact ⟨c, hc, by simp [callKey]⟩

/-- The rows of the batch of a store built from a fresh aggregator by `calls`:
one for every addressed key, carrying the number of calls for it, wrapped to 64
bits. -/
theorem mem_batch_of_calls (shardCount flushEvery : Int) (calls : List (Int × Time))
    (a : Aggregator) (h : IncAll calls (NewAggregator shardCount flushEvery) = some a)
    (r : AggregateRow) :
    r ∈ buildBatchSnapshot a
      ↔ ∃ k, k ∈ distinctKeys calls ∧ r = rowOf k (wrap64 (callsFor k calls)) := by
  have hempty : ∀ i k, liveCount (NewAggregator shardCount flushEvery) i k = none :=
    liveCount_of_batch_nil _
      ((buildBatchSnapshot_eq_nil _).mpr (NewAggregator_shards_empty shardCount flushEvery))
  rw [mem_buildBatchSnapshot]
  constructor
  · rintro ⟨i, k, v, hl, rfl⟩
    rw [liveCount_IncAll calls _ a h i k, hempty] at hl
    split_ifs at hl with hc
    · simp only [Option.getD_none, zero_add, Option.some.injEq] at hl
      exact ⟨k, (callsFor_ne_zero_iff k calls).mp hc.2, by rw [hl]⟩
  · rintro ⟨k, hk, rfl⟩
    have hn := (callsFor_ne_zero_iff k calls).mpr hk
    have hidx := shardIndex_eq _ k (NewAggregator_shards_ne shardCount flushEvery)
    refine ⟨((uint64 k.banner * 1315423911 % 2 ^ 64) ^^^ uint64 k.minute)
        % (NewAggregator shardCount flushEvery).shards.length, k, _, ?_, rfl⟩
    rw [liveCount_IncAll calls _ a h _ k, hempty]
    simp only [hidx, hn, ne_eq, not_false_eq_true, and_self, if_true, Option.getD_none, zero_add]

/-- The batch of a store built from a fresh aggregator by `calls` is, up to
order, one row per distinct addressed key. -/
theorem batch_of_calls_perm (shardCount flushEvery : Int) (calls : List (Int × Time))
    (a : Aggregator) (h : IncAll calls (NewAggregator shardCount flushEvery) = some a) :
    (buildBatchSnapshot a).Perm
      ((distinctKeys calls).map (fun k => rowOf k (wrap64 (callsFor k calls)))) := by
  have hwr := WellRouted_IncAll calls _ a h (WellRouted_NewAggregator shardCount flushEvery)
  rw [List.perm_ext_iff_of_nodup (buildBatchSnapshot_nodup a hwr)]
  · intro r
    rw [mem_batch_of_calls shardCount flushEvery calls a h r, List.mem_map]
    constructor
    · rintro ⟨k, hk, rfl⟩; exact ⟨k, hk, rfl⟩
    · rintro ⟨k, hk, rfl⟩; exact ⟨k, hk, rfl⟩
  · apply List.Nodup.map_on _ (List.nodup_dedup _)
    intro x _ y _ hxy
    exact (rowOf_inj x y _ _ hxy).1

theorem rowOf_bucket_TS (t : Time) (b v : Int) :
    (rowOf { banner := b, minute := bucket t } v).TS = minuteUTC t := by
  have h1 := minuteUTC_ns t
  have h2 := minuteUTC_loc t
  have h3 := bucket_mul_sixty t
  cases hm : minuteUTC t with
  | mk n l =>
    rw [hm] at h1 h2
    simp only at h1 h2
    simp only [rowOf, Time.UTC, unixTime, h3, h1, h2]

theorem Stop_eq (upsert : List AggregateRow → Bool) (a : Aggregator)
    (hopen : a.stopClosed = false) :
    Stop upsert a
      = some ({ a with stopClosed := true },
          if (buildBatchSnapshot a).length > 0 then [buildBatchSnapshot a] else []) := by
  unfold Stop
  simp only [hopen, Bool.false_eq_true, if_false]
  split_ifs <;> rfl

theorem distinctKeys_eq_nil (calls : List (Int × Time)) :
    distinctKeys calls = [] ↔ calls = [] := by
  constructor
  · intro h
    cases calls with
    | nil => rfl
    | cons c cs =>
      exfalso
      have : callKey c ∈ distinctKeys (c :: cs) := by
        unfold distinctKeys
        rw [List.mem_dedup]
        simp
      rw [h] at this
      cases this
  · rintro rfl
    rfl

/-! ## C5: the shutdown drain -/

/-- C5, as stated, fails once a key has been incremented 2^63 times: the drain
batch then carries the wrapped count -2^63 for that key, and no row with the
number of `Inc` calls. -/
theorem drain_count_wraps :
    callsFor sampleKey (List.replicate 9223372036854775808 (1, sampleNow))
      = 9223372036854775808 ∧
    ∃ a a', IncAll (List.replicate 9223372036854775808 (1, sampleNow))
        (NewAggregator 1 Second) = some a ∧
      Stop (fun _ => true) a = some (a', [buildBatchSnapshot a]) ∧
      rowOf sampleKey (-9223372036854775808) ∈ buildBatchSnapshot a ∧
      rowOf sampleKey 9223372036854775808 ∉ buildBatchSnapshot a := by
  have hcount : callsFor sampleKey (List.replicate 9223372036854775808 (1, sampleNow))
      = 9223372036854775808 := by
    unfold callsFor
    rw [List.countP_replicate]
    exact if_pos (by decide)
  refine ⟨hcount, ?_⟩
  obtain ⟨a, ha⟩ := IncAll_some (List.replicate 9223372036854775808 (1, sampleNow))
    (NewAggregator 1 Second) (NewAggregator_shards_ne 1 Second)
  have hwr := WellRouted_IncAll _ _ a ha (WellRouted_NewAggregator 1 Second)
  have hmem : rowOf sampleKey (-9223372036854775808) ∈ buildBatchSnapshot a := by
    rw [mem_batch_of_calls 1 Second _ a ha]
    refine ⟨sampleKey, (callsFor_ne_zero_iff _ _).mp (by rw [hcount]; decide), ?_⟩
    rw [hcount]
    rfl
  have hopen : a.stopClosed = false := (IncAll_frame _ _ a ha).2.2
  refine ⟨a, { a with stopClosed := true }, ha, ?_, hmem, ?_⟩
  · rw [Stop_eq _ a hopen, if_pos (List.length_pos_of_mem hmem)]
  · intro h
    have := batch_row_unique a hwr sampleKey _ _ hmem h
    omega

/-- C5, amended. For every store state reached from a fresh aggregator by
`Inc` calls only, `Stop` completes and hands the writer exactly one batch when
at least one call was made and nothing otherwise; that batch has exactly one
row per distinct (banner, minute) key that was incremented; and a key that was
incremented fewer than 2^63 times has its row carry the number of `Inc` calls
for it (with all keys below 2^63, the batch is, up to order, exactly those
rows). -/
theorem Stop_drains_increments (shardCount flushEvery : Int) (calls : List (Int × Time))
    (upsert : List AggregateRow → Bool) :
    ∃ a a', IncAll calls (NewAggregator shardCount flushEvery) = some a ∧
      Stop upsert a = some (a', if calls = [] then [] else [buildBatchSnapshot a]) ∧
      (calls ≠ [] → buildBatchSnapshot a ≠ []) ∧
      ((buildBatchSnapshot a).map (fun r => (r.BannerID, r.TS))).Perm
        ((distinctKeys calls).map (fun k => (k.banner, (unixTime (k.minute * 60)).UTC))) ∧
      (∀ k ∈ distinctKeys calls, (callsFor k calls : Int) < 2 ^ 63 →
        rowOf k (callsFor k calls) ∈ buildBatchSnapshot a) ∧
      ((∀ k ∈ distinctKeys calls, (callsFor k calls : Int) < 2 ^ 63) →
        (buildBatchSnapshot a).Perm
          ((distinctKeys calls).map (fun k => rowOf k (callsFor k calls)))) := by
  obtain ⟨a, ha⟩ := IncAll_some calls (NewAggregator shardCount flushEvery)
    (NewAggregator_shards_ne shardCount flushEvery)
  have hperm := batch_of_calls_perm shardCount flushEvery calls a ha
  have hopen : a.stopClosed = false := (IncAll_frame _ _ a ha).2.2
  have hwrap : ∀ k, (callsFor k calls : Int) < 2 ^ 63 →
      wrap64 (callsFor k calls) = callsFor k calls := by
    intro k hk
    apply wrap64_of_isInt64
    unfold isInt64
    constructor <;> omega
  have hnil : buildBatchSnapshot a = [] ↔ calls = [] := by
    rw [← distinctKeys_eq_nil]
    constructor
    · intro h
      rw [h] at hperm
      have := List.Perm.length_eq hperm
      simp only [List.length_nil, List.length_map] at this
      exact List.length_eq_zero.mp this.symm
    · intro h
      rw [h] at hperm
      exact List.Perm.eq_nil hperm
  refine ⟨a, { a with stopClosed := true }, ha, ?_, ?_, ?_, ?_, ?_⟩
  · rw [Stop_eq upsert a hopen]
    by_cases hc : calls = []
    · have := hnil.mpr hc
      simp [hc, this]
    · have : buildBatchSnapshot a ≠ [] := fun h => hc (hnil.mp h)
      simp [hc, List.length_pos.mpr this]
  · intro hc h
    exact hc (hnil.mp h)
  · have := List.Perm.map (fun r : AggregateRow => (r.BannerID, r.TS)) hperm
    simpa [List.map_map, Function.comp, rowOf] using this
  · intro k hk hlt
    rw [mem_batch_of_calls shardCount flushEvery calls a ha]
    exact ⟨k, hk, by rw [hwrap k hlt]⟩
  · intro hall
    have : (distinctKeys calls).map (fun k => rowOf k (wrap64 (callsFor k calls)))
        = (distinctKeys calls).map (fun k => rowOf k (callsFor k calls)) := by
      apply List.map_congr_left
      intro k hk
      rw [hwrap k (hall k hk)]
    rw [← this]
    exact hperm

/-! ## C3: no double count -/

/-- C3. For every shard count and flush interval given to `NewAggregator`,
every banner, every `N` with `1 <= N < 2^63` and every list of `N` timestamps
that all lie in the same UTC minute: applying the `N` `Inc` calls to the fresh
aggregator, in any order, succeeds, and the next snapshot batch consists of
exactly one row, with that banner, count `N`, and the start of that minute as
its timestamp. -/
theorem same_minute_single_row (shardCount flushEvery b : Int) (ts order : List Time)
    (hN : 1 ≤ ts.length) (hlt : (ts.length : Int) < 2 ^ 63)
    (hsame : ∀ t ∈ ts, ∀ u ∈ ts, sameUTCMinute t u) (hperm : order.Perm ts) :
    ∃ a, IncAll (order.map (fun t => (b, t))) (NewAggregator shardCount flushEvery) = some a ∧
      ∃ r, buildBatchSnapshot a = [r] ∧ r.BannerID = b ∧ r.Cnt = ts.length ∧
        ∀ t ∈ ts, r.TS = minuteUTC t := by
  obtain ⟨a, ha⟩ := IncAll_some (order.map (fun t => (b, t)))
    (NewAggregator shardCount flushEvery) (NewAggregator_shards_ne shardCount flushEvery)
  have hlen : order.length = ts.length := List.Perm.length_eq hperm
  obtain ⟨t0, ht0⟩ : ∃ t0, t0 ∈ ts := by
    cases ts with
    | nil => simp at hN
    | cons t rest => exact ⟨t, List.mem_cons_self _ _⟩
  have hbucket : ∀ t ∈ ts, bucket t = bucket t0 := by
    intro t ht
    have := hsame t ht t0 ht0
    unfold sameUTCMinute at this
    rw [bucket_eq_floor, bucket_eq_floor]
    exact this
  have hkey : ∀ c ∈ order.map (fun t => (b, t)),
      callKey c = { banner := b, minute := bucket t0 } := by
    intro c hc
    obtain ⟨t, ht, rfl⟩ := List.mem_map.mp hc
    simp only [callKey, key.mk.injEq, true_and]
    exact hbucket t (hperm.mem_iff.mp ht)
  have hcount : callsFor { banner := b, minute := bucket t0 } (order.map (fun t => (b, t)))
      = ts.length := by
    unfold callsFor
    rw [← hlen, ← List.length_map order (fun t => (b, t))]
    apply List.countP_eq_length.mpr
    intro c hc
    have := hkey c hc
    simp only [callKey, key.mk.injEq] at this
    simpa using this
  have hdist : ∀ k, k ∈ distinctKeys (order.map (fun t => (b, t)))
      ↔ k = { banner := b, minute := bucket t0 } := by
    intro k
    constructor
    · intro hk
      unfold distinctKeys at hk
      rw [List.mem_dedup, List.mem_map] at hk
      obtain ⟨c, hc, rfl⟩ := hk
      exact hkey c hc
    · rintro rfl
      apply (callsFor_ne_zero_iff _ _).mp
      rw [hcount]
      omega
  have hwrap : wrap64 (ts.length : Int) = ts.length := by
    apply wrap64_of_isInt64
    unfold isInt64
    constructor <;> omega
  have hwr := WellRouted_IncAll _ _ a ha (WellRouted_NewAggregator shardCount flushEvery)
  have hbatch : buildBatchSnapshot a
      = [rowOf { banner := b, minute := bucket t0 } ts.length] := by
    apply List.perm_singleton.mp
    rw [List.perm_ext_iff_of_nodup (buildBatchSnapshot_nodup a hwr) (List.nodup_singleton _)]
    intro r
    rw [mem_batch_of_calls shardCount flushEvery _ a ha r, List.mem_singleton]
    constructor
    · rintro ⟨k, hk, rfl⟩
      rw [(hdist k).mp hk, hcount, hwrap]
    · rintro rfl
      refine ⟨_, (hdist _).mpr rfl, ?_⟩
      rw [hcount, hwrap]
  refine ⟨a, ha, _, hbatch, rfl, rfl, ?_⟩
  intro t ht
  rw [← hbucket t ht]
  exact rowOf_bucket_TS t b _

/-- A concrete instance of `same_minute_single_row`: the two clicks of the
package test, second 42 and second 52 of one minute, on eight shards. -/
theorem same_minute_single_row_witness :
    ∃ a, IncAll ([sampleNow, { ns := 63896430592000000000, loc := Location.UTC }].map
          (fun t => ((1 : Int), t))) (NewAggregator 8 10000000) = some a ∧
      ∃ r, buildBatchSnapshot a = [r] ∧ r.BannerID = 1 ∧
        r.Cnt = ([{ ns := 63896430592000000000, loc := Location.UTC }, sampleNow] :
          List Time).length ∧
        ∀ t ∈ ([{ ns := 63896430592000000000, loc := Location.UTC }, sampleNow] : List Time),
          r.TS = minuteUTC t :=
  same_minute_single_row 8 10000000 1
    [{ ns := 63896430592000000000, loc := Location.UTC }, sampleNow]
    [sampleNow, { ns := 63896430592000000000, loc := Location.UTC }]
    (by decide) (by decide) (by decide) (List.Perm.swap _ _ _)

/-! ## Configuration parsing -/

theorem getenv_eq_setting (env : String → Option String) (k d : String) :
    getenv env k d = setting env k d := by
  unfold getenv setting
  cases h : env k with
  | none => simp
  | some v =>
    by_cases hv : v = ""
    · simp [hv]
    · simp [hv]

theorem setting_of_unsetOrEmpty (env : String → Option String) (k d : String)
    (h : unsetOrEmpty env k) : setting env k d = d := by
  unfold setting
  rcases h with h | h <;> simp [h]

theorem setting_of_value (env : String → Option String) (k d v : String)
    (h : env k = some v) (hv : v ≠ "") : setting env k d = v := by
  unfold setting
  simp [h, hv]

theorem setting_congr (env env' : String → Option String) (k d : String)
    (h : env' k = env k) : setting env' k d = setting env k d := by
  unfold setting
  rw [h]

theorem foldl_digits_ge (ds : List Char) (acc : Nat) :
    acc ≤ ds.foldl (fun a c => a * 10 + digitOf c) acc := by
  induction ds generalizing acc with
  | nil => exact Nat.le_refl _
  | cons c ds ih =>
    rw [List.foldl_cons]
    have := ih (acc * 10 + digitOf c)
    omega

/-- The digit loop read as a whole: it reports a range error exactly when
the leading digits exceed 2^64 - 1, otherwise a syntax error exactly when a
character that is not a digit follows them, otherwise their value. -/
theorem uintLoop_eq (cs : List Char) (acc : Nat) (hacc : acc < 18446744073709551616) :
    uintLoop cs acc
      = if 18446744073709551616
            ≤ (cs.takeWhile Char.isDigit).foldl (fun a c => a * 10 + digitOf c) acc
        then (18446744073709551615, some NumError.ErrRange)
        else if cs.takeWhile Char.isDigit ≠ cs then (0, some NumError.ErrSyntax)
        else ((cs.takeWhile Char.isDigit).foldl (fun a c => a * 10 + digitOf c) acc, none) := by
  induction cs generalizing acc with
  | nil =>
    simp only [uintLoop, List.takeWhile_nil, List.foldl_nil, ne_eq, not_true_eq_false,
      if_false]
    rw [if_neg (by omega)]
  | cons c cs ih =>
    by_cases hc : c.isDigit = true
    · simp only [uintLoop, hc, if_true, List.takeWhile_cons, List.foldl_cons]
      by_cases hov : 18446744073709551616 ≤ acc * 10 + digitOf c
      · have hge := foldl_digits_ge (cs.takeWhile Char.isDigit) (acc * 10 + digitOf c)
        rw [if_pos hov, if_pos (by omega)]
      · rw [if_neg hov, ih (acc * 10 + digitOf c) (by omega)]
        simp only [ne_eq, List.cons.injEq, true_and]
    · simp only [uintLoop, hc, Bool.false_eq_true, if_false, List.takeWhile_cons,
        List.foldl_nil, ne_eq]
      rw [if_neg (by omega), if_pos (by simp)]

theorem mustInt_eq_intReading (s : String) : mustInt s = intReading s := by
  unfold mustInt Atoi ParseInt intReading digitsValue
  simp only
  generalize hneg : (splitSign s.toList).1 = neg
  generalize hbody : (splitSign s.toList).2 = body
  by_cases hs : s.toList = []
  · have h1 : body = [] := by
      rw [← hbody, hs]
      rfl
    rw [if_pos hs, h1]
    simp
  · rw [if_neg hs]
    unfold ParseUint
    by_cases hb : body = []
    · simp [hb, signedResult]
    · rw [if_neg hb, uintLoop_eq body 0 (by omega)]
      by_cases hov : 18446744073709551616
          ≤ (body.takeWhile Char.isDigit).foldl (fun a c => a * 10 + digitOf c) 0
      · rw [if_pos hov, if_pos hov]
        cases neg <;> simp [signedResult]
      · rw [if_neg hov, if_neg hov]
        by_cases hrun : body.takeWhile Char.isDigit ≠ body
        · rw [if_pos hrun, if_pos (Or.inr hrun)]
          simp [signedResult]
        · rw [if_neg hrun, if_neg (by simp only [hb, false_or]; exact hrun)]
          generalize (body.takeWhile Char.isDigit).foldl (fun a c => a * 10 + digitOf c) 0 = v
          cases neg
          · simp only [signedResult, true_and, Bool.false_eq_true, false_and, if_false]
            split_ifs with h1
            · simp only [maxInt]
              omega
            · simp only [maxInt]
              omega
          · simp only [signedResult, Bool.true_eq_false, false_and, if_false, true_and,
              if_true]
            split_ifs with h1
            · simp only [minInt]
              omega
            · simp only [minInt]
              omega

theorem foldlM_digits (cs : List Char) (acc m : Nat)
    (h : cs.foldlM (fun a c => if c.isDigit then some (a * 10 + (c.toNat - 48)) else none) acc
      = some m) :
    cs.takeWhile Char.isDigit = cs ∧ cs.foldl (fun a c => a * 10 + digitOf c) acc = m := by
  induction cs generalizing acc with
  | nil =>
    simp only [List.foldlM_nil, pure, Option.some.injEq] at h
    exact ⟨rfl, h⟩
  | cons c cs ih =>
    rw [List.foldlM_cons] at h
    by_cases hc : c.isDigit = true
    · simp only [hc, if_true, Option.some_bind, bind] at h
      obtain ⟨h1, h2⟩ := ih _ h
      refine ⟨by simp only [List.takeWhile_cons, hc, if_true, h1], ?_⟩
      rw [List.foldl_cons]
      exact h2
    · simp only [hc, Bool.false_eq_true, if_false, bind, Option.none_bind] at h
      cases h

theorem intSyntax_eq (s : String) :
    intSyntax s = (parseDigits (splitSign s.toList).2).map
      (fun m => if (splitSign s.toList).1 then -(m : Int) else (m : Int)) := by
  unfold intSyntax
  split
  · rename_i cs h
    rw [h]
    simp [splitSign]
  · rename_i cs h
    rw [h]
    simp [splitSign]
  · rename_i cs h1 h2
    have : splitSign s.toList = (false, s.toList) := by
      unfold splitSign
      split
      · rename_i r hr
        exact absurd hr (h2 r)
      · rename_i r hr
        exact absurd hr (h1 r)
      · rfl
    rw [this]
    simp

theorem mustInt_of_valid (s : String) (n : Int) (h : intSyntax s = some n)
    (hlo : minInt ≤ n) (hhi : n ≤ maxInt) : mustInt s = n := by
  rw [mustInt_eq_intReading]
  rw [intSyntax_eq] at h
  unfold intReading
  simp only
  generalize (splitSign s.toList).1 = neg at h ⊢
  generalize (splitSign s.toList).2 = body at h ⊢
  cases hp : parseDigits body with
  | none => rw [hp] at h; cases h
  | some m =>
    rw [hp] at h
    replace h : (if neg = true then -(m : Int) else (m : Int)) = n := Option.some.inj h
    unfold parseDigits at hp
    split_ifs at hp with hb
    obtain ⟨hrun, hval⟩ := foldlM_digits body 0 m hp
    have hv : digitsValue (body.takeWhile Char.isDigit) = m := by
      rw [hrun]
      exact hval
    rw [hv, hrun]
    simp only [minInt, maxInt] at hlo hhi ⊢
    cases neg
    · simp only [Bool.false_eq_true, if_false] at h ⊢
      rw [if_neg (by omega), if_neg (by simp [hb])]
      omega
    · simp only [↓reduceIte] at h ⊢
      rw [if_neg (by omega), if_neg (by simp [hb])]
      omega


theorem mustDuration_pos (pd : String → Int) (s : String) : 0 < mustDuration pd s := by
  unfold mustDuration
  simp only
  split_ifs with h
  · simp [Second]
  · omega

/-- `Parse` validates `rawConfig`: it fails exactly when one of the three
checks fails and returns `rawConfig` otherwise. -/
theorem Parse_eq (pd : String → Int) (env : String → Option String) :
    (((rawConfig pd env).DatabaseURL = "" ∨ (rawConfig pd env).Shards ≤ 0
        ∨ (rawConfig pd env).ReadMaxRangeDays < 0) →
      ∃ msg, Parse pd env = Except.error msg) ∧
    (¬ ((rawConfig pd env).DatabaseURL = "" ∨ (rawConfig pd env).Shards ≤ 0
        ∨ (rawConfig pd env).ReadMaxRangeDays < 0) →
      Parse pd env = Except.ok (rawConfig pd env)) := by
  unfold Parse
  simp only [getenv_eq_setting]
  constructor
  · intro h
    by_cases h1 : setting env "DATABASE_URL" "" = ""
    · simp [h1]
    · by_cases h2 : mustInt (setting env "SHARDS" "64") ≤ 0
      · simp [h1, h2]
      · by_cases h3 : mustInt (setting env "READ_MAX_RANGE_DAYS" "90") < 0
        · simp [h1, h2, h3]
        · exact absurd h (by simp [rawConfig, h1, h2, h3])
  · intro h
    simp only [rawConfig, not_or] at h
    obtain ⟨h1, h2, h3⟩ := h
    simp [h1, h2, h3, rawConfig]

/-! ## C11: `Parse` fails exactly on an invalid configuration -/

/-- C11, as stated, fails: "99999999999999999999x" is not a number, yet
`strconv.Atoi` has already met the range error on its leading digits and
returns the largest `int`, so with this `SHARDS` value and a database URL
`Parse` succeeds with `Shards = 9223372036854775807`, whatever
`time.ParseDuration` does. -/
theorem Parse_accepts_overflowing_text :
    intSyntax "99999999999999999999x" = none ∧
    Atoi "99999999999999999999x" = (9223372036854775807, some NumError.ErrRange) ∧
    ∀ pd : String → Int, ∃ c, Parse pd overflowEnv = Except.ok c ∧
      c.Shards = 9223372036854775807 := by
  refine ⟨by decide, by decide, ?_⟩
  intro pd
  refine ⟨rawConfig pd overflowEnv, ?_, ?_⟩
  · apply (Parse_eq pd overflowEnv).2
    simp only [not_or, rawConfig]
    exact ⟨by decide, by decide, by decide⟩
  · show mustInt (setting overflowEnv "SHARDS" "64") = 9223372036854775807
    decide

/-- C11, amended. For every environment (and every behaviour of
`time.ParseDuration`), `Parse` returns an error, and no `Config`, if and only
if `DATABASE_URL` is unset or empty, or `SHARDS` (default "64" when unset or
empty) is read as a value `<= 0`, or `READ_MAX_RANGE_DAYS` (default "90") is
read as a value `< 0`, where a string is read as by `intReading`: 0 when it is
not a number, except that leading digits beyond 2^64 - 1 make it the largest
`int` (the smallest after a minus) whatever follows, and a number out of range
is the nearest `int`; otherwise `Parse` returns a `Config` with a non-empty
`DatabaseURL`, `Shards > 0`, `ReadMaxRangeDays >= 0`, `FlushEvery > 0` and
`ShutdownWait > 0`. -/
theorem Parse_fails_iff_invalid (pd : String → Int) (env : String → Option String) :
    ((∃ msg, Parse pd env = Except.error msg) ↔
      (unsetOrEmpty env "DATABASE_URL" ∨
        intReading (setting env "SHARDS" "64") ≤ 0 ∨
        intReading (setting env "READ_MAX_RANGE_DAYS" "90") < 0)) ∧
    ((∃ msg, Parse pd env = Except.error msg) ∨
      ∃ c, Parse pd env = Except.ok c ∧ c.DatabaseURL ≠ "" ∧ c.Shards > 0 ∧
        c.ReadMaxRangeDays ≥ 0 ∧ c.FlushEvery > 0 ∧ c.ShutdownWait > 0) := by
  have hdb : (rawConfig pd env).DatabaseURL = "" ↔ unsetOrEmpty env "DATABASE_URL" := by
    simp only [rawConfig, setting, unsetOrEmpty]
    cases h : env "DATABASE_URL" with
    | none => simp
    | some v =>
      by_cases hv : v = ""
      · simp [hv]
      · simp [hv]
  have hsh : (rawConfig pd env).Shards ≤ 0 ↔ intReading (setting env "SHARDS" "64") ≤ 0 := by
    simp only [rawConfig, mustInt_eq_intReading]
  have hrd : (rawConfig pd env).ReadMaxRangeDays < 0
      ↔ intReading (setting env "READ_MAX_RANGE_DAYS" "90") < 0 := by
    simp only [rawConfig, mustInt_eq_intReading]
  obtain ⟨hbad, hgood⟩ := Parse_eq pd env
  by_cases hc : (rawConfig pd env).DatabaseURL = "" ∨ (rawConfig pd env).Shards ≤ 0
      ∨ (rawConfig pd env).ReadMaxRangeDays < 0
  · refine ⟨⟨fun _ => ?_, fun _ => hbad hc⟩, Or.inl (hbad hc)⟩
    rw [← hdb, ← hsh, ← hrd]
    exact hc
  · have hok := hgood hc
    refine ⟨⟨?_, ?_⟩, Or.inr ⟨_, hok, ?_⟩⟩
    · rintro ⟨msg, hmsg⟩
      rw [hok] at hmsg
      cases hmsg
    · intro h
      rw [← hdb, ← hsh, ← hrd] at h
      exact absurd h hc
    · simp only [not_or] at hc
      obtain ⟨h1, h2, h3⟩ := hc
      refine ⟨h1, by omega, by omega, ?_, ?_⟩
      · exact mustDuration_pos pd _
      · exact mustDuration_pos pd _

/-! ## C12: defaults and overrides of `Parse` -/

/-- C12. Let `time.ParseDuration` read "1s" as one second and "5s" as five
seconds.  For every environment with a non-empty `DATABASE_URL` in which the
seven other variables are unset or empty, `Parse` succeeds with `ListenAddr`
":3000", `LogLevel` "info", `FlushEvery` 1s, `Shards` 64, `MaxCPU` 0,
`ReadMaxRangeDays` 90 and `ShutdownWait` 5s.  And whenever `Parse` succeeds, a
variable set to a non-empty valid value is the value of its own field, and
every field is the same in any other successful environment that agrees on
that field's variable, so a variable overrides its own field only. -/
theorem Parse_defaults_and_overrides (pd : String → Int) (env : String → Option String)
    (h1 : pd "1s" = 1000000000) (h5 : pd "5s" = 5000000000) :
    (∀ db, env "DATABASE_URL" = some db → db ≠ "" →
      unsetOrEmpty env "LISTEN_ADDR" → unsetOrEmpty env "LOG_LEVEL" →
      unsetOrEmpty env "FLUSH_EVERY" → unsetOrEmpty env "SHARDS" →
      unsetOrEmpty env "MAX_CPU" → unsetOrEmpty env "READ_MAX_RANGE_DAYS" →
      unsetOrEmpty env "SHUTDOWN_WAIT" →
      Parse pd env = Except.ok
        { ListenAddr := ":3000", DatabaseURL := db, LogLevel := "info",
          FlushEvery := 1000000000, Shards := 64, MaxCPU := 0, ReadMaxRangeDays := 90,
          ShutdownWait := 5000000000 }) ∧
    (∀ c, Parse pd env = Except.ok c →
      (∀ v, env "LISTEN_ADDR" = some v → v ≠ "" → c.ListenAddr = v) ∧
      (∀ v, env "LOG_LEVEL" = some v → v ≠ "" → c.LogLevel = v) ∧
      (∀ v, env "FLUSH_EVERY" = some v → v ≠ "" → 0 < pd v → c.FlushEvery = pd v) ∧
      (∀ v n, env "SHARDS" = some v → v ≠ "" → intSyntax v = some n →
        minInt ≤ n → n ≤ maxInt → c.Shards = n) ∧
      (∀ v n, env "MAX_CPU" = some v → v ≠ "" → intSyntax v = some n →
        minInt ≤ n → n ≤ maxInt → c.MaxCPU = n) ∧
      (∀ v n, env "READ_MAX_RANGE_DAYS" = some v → v ≠ "" → intSyntax v = some n →
        minInt ≤ n → n ≤ maxInt → c.ReadMaxRangeDays = n) ∧
      (∀ v, env "SHUTDOWN_WAIT" = some v → v ≠ "" → 0 < pd v → c.ShutdownWait = pd v) ∧
      ∀ (env2 : String → Option String) (c2 : Config), Parse pd env2 = Except.ok c2 →
        (env2 "LISTEN_ADDR" = env "LISTEN_ADDR" → c2.ListenAddr = c.ListenAddr) ∧
        (env2 "DATABASE_URL" = env "DATABASE_URL" → c2.DatabaseURL = c.DatabaseURL) ∧
        (env2 "LOG_LEVEL" = env "LOG_LEVEL" → c2.LogLevel = c.LogLevel) ∧
        (env2 "FLUSH_EVERY" = env "FLUSH_EVERY" → c2.FlushEvery = c.FlushEvery) ∧
        (env2 "SHARDS" = env "SHARDS" → c2.Shards = c.Shards) ∧
        (env2 "MAX_CPU" = env "MAX_CPU" → c2.MaxCPU = c.MaxCPU) ∧
        (env2 "READ_MAX_RANGE_DAYS" = env "READ_MAX_RANGE_DAYS" →
          c2.ReadMaxRangeDays = c.ReadMaxRangeDays) ∧
        (env2 "SHUTDOWN_WAIT" = env "SHUTDOWN_WAIT" → c2.ShutdownWait = c.ShutdownWait)) := by
  have hraw : ∀ (e : String → Option String) (c : Config),
      Parse pd e = Except.ok c → c = rawConfig pd e := by
    intro e c hc
    obtain ⟨hbad, hgood⟩ := Parse_eq pd e
    by_cases hcond : (rawConfig pd e).DatabaseURL = "" ∨ (rawConfig pd e).Shards ≤ 0
        ∨ (rawConfig pd e).ReadMaxRangeDays < 0
    · obtain ⟨msg, hmsg⟩ := hbad hcond
      rw [hmsg] at hc
      cases hc
    · rw [hgood hcond] at hc
      cases hc
      rfl
  have hdur : ∀ v, 0 < pd v → mustDuration pd v = pd v := by
    intro v hv
    unfold mustDuration
    simp only
    rw [if_neg (by omega)]
  constructor
  · intro db hdb hne h2 h3 h4 h5' h6 h7 h8
    have hcfg : rawConfig pd env =
        { ListenAddr := ":3000", DatabaseURL := db, LogLevel := "info",
          FlushEvery := 1000000000, Shards := 64, MaxCPU := 0, ReadMaxRangeDays := 90,
          ShutdownWait := 5000000000 } := by
      simp only [rawConfig, setting_of_unsetOrEmpty env _ _ h2,
        setting_of_unsetOrEmpty env _ _ h3, setting_of_unsetOrEmpty env _ _ h4,
        setting_of_unsetOrEmpty env _ _ h5', setting_of_unsetOrEmpty env _ _ h6,
        setting_of_unsetOrEmpty env _ _ h7, setting_of_unsetOrEmpty env _ _ h8,
        setting_of_value env _ _ db hdb hne]
      have e1 : mustInt "64" = 64 := by decide
      have e2 : mustInt "0" = 0 := by decide
      have e3 : mustInt "90" = 90 := by decide
      have e4 : mustDuration pd "1s" = 1000000000 := by rw [hdur _ (by omega), h1]
      have e5 : mustDuration pd "5s" = 5000000000 := by rw [hdur _ (by omega), h5]
      rw [e1, e2, e3, e4, e5]
    have hgood := (Parse_eq pd env).2
    rw [hcfg] at hgood
    apply hgood
    simp only [not_or]
    exact ⟨hne, by omega, by omega⟩
  · intro c hc
    have hceq := hraw env c hc
    subst hceq
    refine ⟨?_, ?_, ?_, ?_, ?_, ?_, ?_, ?_⟩
    · intro v hv hne
      exact setting_of_value env _ _ v hv hne
    · intro v hv hne
      exact setting_of_value env _ _ v hv hne
    · intro v hv hne hpos
      simp only [rawConfig, setting_of_value env _ _ v hv hne]
      exact hdur v hpos
    · intro v n hv hne hn hlo hhi
      simp only [rawConfig, setting_of_value env _ _ v hv hne]
      exact mustInt_of_valid v n hn hlo hhi
    · intro v n hv hne hn hlo hhi
      simp only [rawConfig, setting_of_value env _ _ v hv hne]
      exact mustInt_of_valid v n hn hlo hhi
    · intro v n hv hne hn hlo hhi
      simp only [rawConfig, setting_of_value env _ _ v hv hne]
      exact mustInt_of_valid v n hn hlo hhi
    · intro v hv hne hpos
      simp only [rawConfig, setting_of_value env _ _ v hv hne]
      exact hdur v hpos
    · intro env2 c2 hc2
      have hceq2 := hraw env2 c2 hc2
      subst hceq2
      refine ⟨?_, ?_, ?_, ?_, ?_, ?_, ?_, ?_⟩ <;> intro h <;>
        simp only [rawConfig, setting_congr env env2 _ _ h]

/-- A concrete instance of `Parse_defaults_and_overrides`: the defaults for an
environment that sets `DATABASE_URL` only, and the overrides for the
environment of the package test with custom values. -/
theorem Parse_defaults_and_overrides_witness :
    Parse secondsDuration minimalEnv = Except.ok
      { ListenAddr := ":3000", DatabaseURL := "postgres://u:p@h:5432/db?sslmode=disable",
        LogLevel := "info", FlushEvery := 1000000000, Shards := 64, MaxCPU := 0,
        ReadMaxRangeDays := 90, ShutdownWait := 5000000000 } ∧
    ∀ c, Parse secondsDuration customEnv = Except.ok c →
      c.ListenAddr = ":8080" ∧ c.LogLevel = "debug" ∧ c.FlushEvery = 250000000 ∧
      c.Shards = 128 ∧ c.MaxCPU = 4 ∧ c.ReadMaxRangeDays = 7 ∧
      c.ShutdownWait = 2000000000 := by
  have hmin := (Parse_defaults_and_overrides secondsDuration minimalEnv
    (by decide) (by decide)).1
  have hcus := (Parse_defaults_and_overrides secondsDuration customEnv
    (by decide) (by decide)).2
  refine ⟨hmin _ rfl (by decide) (by decide) (by decide) (by decide) (by decide)
    (by decide) (by decide) (by decide), ?_⟩
  intro c hc
  obtain ⟨a1, a2, a3, a4, a5, a6, a7, -⟩ := hcus c hc
  exact ⟨a1 ":8080" rfl (by decide), a2 "debug" rfl (by decide),
    a3 "250ms" rfl (by decide) (by decide),
    a4 "128" 128 rfl (by decide) (by decide) (by decide) (by decide),
    a5 "4" 4 rfl (by decide) (by decide) (by decide) (by decide),
    a6 "7" 7 rfl (by decide) (by decide) (by decide) (by decide),
    a7 "2s" rfl (by decide) (by decide)⟩

/-! ## Histories and the routing invariant -/

theorem WellRouted_of_shards_eq (a a' : Aggregator) (h : a'.shards = a.shards)
    (hwr : WellRouted a) : WellRouted a' := by
  intro i k hk
  have h1 : liveCount a' i k = liveCount a i k := by simp only [liveCount, h]
  have h2 : shardIndex a' k = shardIndex a k := shardIndex_congr a' a k (by rw [h])
  rw [h2]
  exact hwr i k (by rw [← h1]; exact hk)

theorem IncAll_single (a : Aggregator) (b : Int) (t : Time) :
    IncAll [(b, t)] a = Inc a b t := by
  rw [IncAll_cons]
  cases Inc a b t with
  | none => rfl
  | some a1 => rfl

theorem WellRouted_committed (a live a' : Aggregator)
    (hlen : a.shards.length = live.shards.length)
    (ha' : a'.shards = commitShards (snapshotShards a.shards) live.shards)
    (hwr : WellRouted live) : WellRouted a' := by
  intro i k hk
  rw [liveCount_committed a live a' hlen ha' i k] at hk
  have hl : a'.shards.length = live.shards.length := by rw [ha', commitShards_length]
  rw [shardIndex_congr a' live k hl]
  split_ifs at hk with h0
  · exact hwr i k hk
  · exact absurd rfl hk

theorem runCycle_cases (upsert : List AggregateRow → Bool) (during : List (Int × Time))
    (a a' : Aggregator) (calls : List (List AggregateRow))
    (h : runCycle upsert during a = some (a', calls)) :
    ∃ live, IncAll during a = some live ∧
      ((a' = live ∧ (calls = [] ∨ (calls = [buildBatchSnapshot a]
          ∧ upsert (buildBatchSnapshot a) = false))) ∨
       (a' = { live with shards := commitShards (snapshotShards a.shards) live.shards }
          ∧ calls = [buildBatchSnapshot a] ∧ upsert (buildBatchSnapshot a) = true
          ∧ buildBatchSnapshot a ≠ [])) := by
  cases hl : IncAll during a with
  | none =>
    unfold runCycle at h
    simp only [hl] at h
    cases h
  | some live =>
    rw [runCycle_eq upsert during a live hl] at h
    refine ⟨live, rfl, ?_⟩
    split_ifs at h with hb hu
    · simp only [Option.some.injEq, Prod.mk.injEq] at h
      exact Or.inl ⟨h.1.symm, Or.inl h.2.symm⟩
    · simp only [Option.some.injEq, Prod.mk.injEq] at h
      exact Or.inl ⟨h.1.symm, Or.inr ⟨h.2.symm, hu⟩⟩
    · simp only [Option.some.injEq, Prod.mk.injEq] at h
      refine Or.inr ⟨h.1.symm, h.2.symm, by simpa using hu, ?_⟩
      intro hnil
      exact hb (by rw [hnil]; rfl)

theorem WellRouted_runCycle (upsert : List AggregateRow → Bool) (during : List (Int × Time))
    (a a' : Aggregator) (calls : List (List AggregateRow))
    (h : runCycle upsert during a = some (a', calls)) (hwr : WellRouted a) :
    WellRouted a' := by
  obtain ⟨live, hl, hc⟩ := runCycle_cases upsert during a a' calls h
  have hwl := WellRouted_IncAll during a live hl hwr
  rcases hc with ⟨rfl, -⟩ | ⟨rfl, -⟩
  · exact hwl
  · exact WellRouted_committed a live _ (IncAll_frame during a live hl).1.symm rfl hwl

theorem Stop_shards (upsert : List AggregateRow → Bool) (a a' : Aggregator)
    (calls : List (List AggregateRow)) (h : Stop upsert a = some (a', calls)) :
    a'.shards = a.shards := by
  cases hopen : a.stopClosed with
  | true =>
    unfold Stop at h
    simp only [hopen, if_true] at h
    cases h
  | false =>
    rw [Stop_eq upsert a hopen] at h
    simp only [Option.some.injEq, Prod.mk.injEq] at h
    rw [← h.1]

theorem WellRouted_applyEvent (w w' : World) (e : Event) (h : applyEvent w e = some w')
    (hwr : WellRouted w.agg) : WellRouted w'.agg := by
  cases e with
  | inc b t =>
    simp only [applyEvent] at h
    cases h1 : Inc w.agg b t with
    | none => rw [h1] at h; cases h
    | some a =>
      rw [h1] at h
      simp only [Option.some.injEq] at h
      subst h
      exact WellRouted_IncAll [(b, t)] w.agg a (by rw [IncAll_single]; exact h1) hwr
  | tick upsert during =>
    simp only [applyEvent] at h
    cases h1 : runCycle upsert during w.agg with
    | none => rw [h1] at h; cases h
    | some r =>
      obtain ⟨a, calls⟩ := r
      rw [h1] at h
      simp only [Option.some.injEq] at h
      subst h
      exact WellRouted_runCycle upsert during w.agg a calls h1 hwr
  | stop upsert =>
    simp only [applyEvent] at h
    cases h1 : Stop upsert w.agg with
    | none => rw [h1] at h; cases h
    | some r =>
      obtain ⟨a, calls⟩ := r
      rw [h1] at h
      simp only [Option.some.injEq] at h
      subst h
      exact WellRouted_of_shards_eq w.agg a (Stop_shards upsert w.agg a calls h1) hwr

theorem runEvents_cons (e : Event) (es : List Event) (w : World) :
    runEvents (e :: es) w = (applyEvent w e).bind (runEvents es) := by
  simp [runEvents, List.foldlM_cons]

theorem WellRouted_runEvents (es : List Event) (w w' : World)
    (h : runEvents es w = some w') (hwr : WellRouted w.agg) : WellRouted w'.agg := by
  induction es generalizing w with
  | nil =>
    simp only [runEvents, List.foldlM_nil, pure, Option.some.injEq] at h
    subst h
    exact hwr
  | cons e es ih =>
    rw [runEvents_cons] at h
    cases h1 : applyEvent w e with
    | none => rw [h1] at h; cases h
    | some w1 =>
      rw [h1] at h
      exact ih w1 h (WellRouted_applyEvent w w1 e h1 hwr)

theorem rowKey_rowOf_inj (k k' : key) (v v' : Int)
    (h : rowKey (rowOf k v) = rowKey (rowOf k' v')) : k = k' := by
  simp only [rowKey, Prod.mk.injEq] at h
  have hm := rowOf_TS_inj k k' v v' h.2
  have hb : k.banner = k'.banner := h.1
  cases k; cases k'
  simp only at hm hb
  subst hm hb
  rfl

/-- In a well-routed store no `(BannerID, TS)` pair occurs twice in the batch. -/
theorem batch_keys_nodup (a : Aggregator) (hwr : WellRouted a) :
    ((buildBatchSnapshot a).map rowKey).Nodup := by
  apply List.Nodup.map_on _ (buildBatchSnapshot_nodup a hwr)
  intro r hr r' hr' hkey
  obtain ⟨i, k, v, hl, rfl⟩ := (mem_buildBatchSnapshot a r).mp hr
  obtain ⟨i', k', v', hl', rfl⟩ := (mem_buildBatchSnapshot a r').mp hr'
  have hk := rowKey_rowOf_inj k k' v v' hkey
  subst hk
  rw [batch_row_unique a hwr k v v' hr hr']

theorem countP_rowKey_le_one (l : List AggregateRow) (hnd : (l.map rowKey).Nodup)
    (p : Int × Time) : l.countP (fun r => decide (rowKey r = p)) ≤ 1 := by
  induction l with
  | nil => simp
  | cons x xs ih =>
    rw [List.map_cons, List.nodup_cons] at hnd
    rw [List.countP_cons]
    have hxs := ih hnd.2
    by_cases hx : rowKey x = p
    · have hzero : xs.countP (fun r => decide (rowKey r = p)) = 0 := by
        rw [List.countP_eq_zero]
        intro y hy hp
        simp only [decide_eq_true_eq] at hp
        apply hnd.1
        rw [hx, ← hp]
        exact List.mem_map.mpr ⟨y, hy, rfl⟩
      rw [hzero]
      simp [hx]
    · simp only [hx, decide_False, Bool.false_eq_true, if_false, add_zero]
      exact hxs

theorem countP_rowKey_eq_one (l : List AggregateRow) (hnd : (l.map rowKey).Nodup)
    (r : AggregateRow) (hr : r ∈ l) :
    l.countP (fun x => decide (rowKey x = rowKey r)) = 1 := by
  have h1 := countP_rowKey_le_one l hnd (rowKey r)
  have h2 : 0 < l.countP (fun x => decide (rowKey x = rowKey r)) :=
    List.countP_pos_iff.mpr ⟨r, hr, by simp⟩
  omega

/-! ## C13: single-shard ownership -/

/-- C13. In every state that a history of `Inc` calls, periodic cycles
(successful or failed, with `Inc` calls landing inside them) and `Stop` reaches
from a freshly constructed aggregator, every key resident in shard `i` is
routed to `i`; hence a key is resident in at most one shard, the snapshot batch
has at most one row per `(BannerID, TS)` pair, and it has exactly one row for
every resident key, carrying its resident count. -/
theorem single_shard_ownership (shardCount flushEvery : Int) (es : List Event) (w : World)
    (hrun : runEvents es (freshWorld shardCount flushEvery) = some w) :
    (∀ (i : Nat) (k : key), liveCount w.agg i k ≠ none → shardIndex w.agg k = some i) ∧
    (∀ (i j : Nat) (k : key), liveCount w.agg i k ≠ none → liveCount w.agg j k ≠ none →
      i = j) ∧
    (∀ p : Int × Time,
      (buildBatchSnapshot w.agg).countP (fun r => decide ((r.BannerID, r.TS) = p)) ≤ 1) ∧
    (∀ (i : Nat) (k : key) (v : Int), liveCount w.agg i k = some v →
      rowOf k v ∈ buildBatchSnapshot w.agg ∧
      (buildBatchSnapshot w.agg).countP
        (fun r => decide ((r.BannerID, r.TS) = (k.banner, (unixTime (k.minute * 60)).UTC)))
        = 1) := by
  have hwr : WellRouted w.agg :=
    WellRouted_runEvents es _ w hrun (WellRouted_NewAggregator shardCount flushEvery)
  have hnd := batch_keys_nodup w.agg hwr
  refine ⟨hwr, ?_, ?_, ?_⟩
  · intro i j k hi hj
    have h1 := hwr i k hi
    have h2 := hwr j k hj
    rw [h1] at h2
    simpa using h2
  · intro p
    exact countP_rowKey_le_one _ hnd p
  · intro i k v hl
    have hmem : rowOf k v ∈ buildBatchSnapshot w.agg :=
      (mem_buildBatchSnapshot w.agg _).mpr ⟨i, k, v, hl, rfl⟩
    exact ⟨hmem, countP_rowKey_eq_one _ hnd _ hmem⟩

/-- A concrete instance of `single_shard_ownership`: the state reached by
`sampleHistory` on four shards. -/
theorem single_shard_ownership_witness :
    (∀ (i : Nat) (k : key), liveCount sampleFinal.agg i k ≠ none →
      shardIndex sampleFinal.agg k = some i) ∧
    (∀ (i j : Nat) (k : key), liveCount sampleFinal.agg i k ≠ none →
      liveCount sampleFinal.agg j k ≠ none → i = j) ∧
    (∀ p : Int × Time,
      (buildBatchSnapshot sampleFinal.agg).countP
        (fun r => decide ((r.BannerID, r.TS) = p)) ≤ 1) ∧
    (∀ (i : Nat) (k : key) (v : Int), liveCount sampleFinal.agg i k = some v →
      rowOf k v ∈ buildBatchSnapshot sampleFinal.agg ∧
      (buildBatchSnapshot sampleFinal.agg).countP
        (fun r => decide ((r.BannerID, r.TS) = (k.banner, (unixTime (k.minute * 60)).UTC)))
        = 1) :=
  single_shard_ownership 4 Second sampleHistory sampleFinal rfl

/-! ## Conservation of counts -/

theorem residentCount_eq (a : Aggregator) (k : key) (j : Nat) (hj : shardIndex a k = some j) :
    residentCount a k = (liveCount a j k).getD 0 := by
  unfold residentCount
  rw [hj]

theorem callsFor_append (k : key) (l₁ l₂ : List (Int × Time)) :
    callsFor k (l₁ ++ l₂) = callsFor k l₁ + callsFor k l₂ := by
  unfold callsFor
  exact List.countP_append _ _ _

theorem callsFor_le_length (k : key) (l : List (Int × Time)) : callsFor k l ≤ l.length := by
  unfold callsFor
  exact List.countP_le_length _

theorem acceptedFor_append (k : key) (l₁ l₂ : List (List AggregateRow)) :
    acceptedFor k (l₁ ++ l₂) = acceptedFor k l₁ + acceptedFor k l₂ := by
  unfold acceptedFor
  rw [List.flatten_append, List.filter_append, List.map_append, List.sum_append]

/-- The rows of key `k` in the batch of a well-routed store carry the resident
count of `k`. -/
theorem acceptedFor_batch (a : Aggregator) (hne : a.shards ≠ []) (hwr : WellRouted a)
    (k : key) : acceptedFor k [buildBatchSnapshot a] = residentCount a k := by
  have hj := shardIndex_eq a k hne
  rw [residentCount_eq a k _ hj]
  unfold acceptedFor
  simp only [List.flatten_cons, List.flatten_nil, List.append_nil]
  cases hl : liveCount a _ k with
  | none =>
    have hnil : (buildBatchSnapshot a).filter
        (fun r => decide (rowKey r = rowKey (rowOf k 0))) = [] := by
      rw [List.filter_eq_nil_iff]
      intro r hr hp
      simp only [decide_eq_true_eq] at hp
      obtain ⟨i, k', v', hl', rfl⟩ := (mem_buildBatchSnapshot a r).mp hr
      have hk := rowKey_rowOf_inj k' k v' 0 hp
      subst hk
      have hi := hwr i k' (by simp [hl'])
      rw [hj] at hi
      simp only [Option.some.injEq] at hi
      rw [hi, hl'] at hl
      cases hl
    rw [hnil]
    rfl
  | some v =>
    have hmem : rowOf k v ∈ buildBatchSnapshot a :=
      (mem_buildBatchSnapshot a _).mpr ⟨_, k, v, hl, rfl⟩
    have hone : (buildBatchSnapshot a).filter
        (fun r => decide (rowKey r = rowKey (rowOf k 0))) = [rowOf k v] := by
      apply List.perm_singleton.mp
      rw [List.perm_ext_iff_of_nodup ((buildBatchSnapshot_nodup a hwr).filter _)
        (List.nodup_singleton _)]
      intro r
      rw [List.mem_filter, List.mem_singleton]
      constructor
      · rintro ⟨hr, hp⟩
        simp only [decide_eq_true_eq] at hp
        obtain ⟨i, k', v', hl', rfl⟩ := (mem_buildBatchSnapshot a r).mp hr
        have hk := rowKey_rowOf_inj k' k v' 0 hp
        subst hk
        rw [batch_row_unique a hwr k' v' v hr hmem]
      · rintro rfl
        exact ⟨hmem, by simp [rowKey, rowOf]⟩
    rw [hone]
    simp [rowOf]

theorem Conserved_fresh (shardCount flushEvery : Int) :
    Conserved (freshWorld shardCount flushEvery) [] := by
  have hempty : ∀ i k, liveCount (NewAggregator shardCount flushEvery) i k = none :=
    liveCount_of_batch_nil _
      ((buildBatchSnapshot_eq_nil _).mpr (NewAggregator_shards_empty shardCount flushEvery))
  refine ⟨NewAggregator_shards_ne shardCount flushEvery,
    WellRouted_NewAggregator shardCount flushEvery, ?_, ?_⟩
  · intro k
    have hj := shardIndex_eq (NewAggregator shardCount flushEvery) k
      (NewAggregator_shards_ne shardCount flushEvery)
    simp only [freshWorld]
    rw [residentCount_eq _ k _ hj, hempty]
    simp [acceptedFor, callsFor]
  · intro i k v hl
    simp only [freshWorld] at hl
    rw [hempty] at hl
    cases hl

theorem resident_bounds (w : World) (incs : List (Int × Time)) (hinv : Conserved w incs)
    (i : Nat) (k : key) :
    0 ≤ (liveCount w.agg i k).getD 0 ∧ (liveCount w.agg i k).getD 0 ≤ callsFor k incs := by
  cases hl : liveCount w.agg i k with
  | none => simp
  | some v =>
    have := hinv.2.2.2 i k v hl
    simp only [Option.getD_some]
    omega

/-- One `Inc` call keeps the bookkeeping invariant, as long as the number of
calls stays below 2^63. -/
theorem Conserved_inc (w : World) (incs : List (Int × Time)) (hinv : Conserved w incs)
    (b : Int) (t : Time) (hlt : (incs.length : Int) + 1 < 2 ^ 63) :
    ∃ w', applyEvent w (Event.inc b t) = some w' ∧ Conserved w' (incs ++ [(b, t)]) := by
  obtain ⟨hne, hwr, hsum, hbd⟩ := hinv
  obtain ⟨a1, hInc⟩ : ∃ a1, Inc w.agg b t = some a1 := by
    obtain ⟨i0, sh0, -, -, h⟩ := Inc_eq w.agg b t hne
    exact ⟨_, h⟩
  have hAll : IncAll [(b, t)] w.agg = some a1 := by rw [IncAll_single]; exact hInc
  have hlen := (IncAll_frame _ _ _ hAll).1
  have hlive := liveCount_IncAll [(b, t)] w.agg a1 hAll
  have hone : ∀ k, callsFor k [(b, t)] ≤ 1 := fun k => callsFor_le_length k [(b, t)]
  have hold : ∀ i k, 0 ≤ (liveCount w.agg i k).getD 0
      ∧ (liveCount w.agg i k).getD 0 ≤ callsFor k incs :=
    resident_bounds w incs ⟨hne, hwr, hsum, hbd⟩
  have hcl : ∀ k, callsFor k incs ≤ incs.length := fun k => callsFor_le_length k incs
  have hnew : ∀ i k, shardIndex w.agg k = some i →
      (liveCount a1 i k).getD 0 = (liveCount w.agg i k).getD 0 + callsFor k [(b, t)] := by
    intro i k hi
    rw [hlive i k]
    by_cases hn : callsFor k [(b, t)] = 0
    · simp [hn]
    · simp only [hi, hn, ne_eq, not_false_eq_true, and_self, if_true, Option.getD_some]
      apply wrap64_of_isInt64
      have h1 := hold i k
      have h2 := hcl k
      have h3 := hone k
      unfold isInt64
      constructor <;> omega
  refine ⟨{ w with agg := a1 }, by simp only [applyEvent, hInc], ?_, ?_, ?_, ?_⟩
  · intro h0
    apply hne
    apply List.length_eq_zero.mp
    rw [← hlen]
    simp only at h0
    rw [h0]
    rfl
  · exact WellRouted_IncAll _ _ _ hAll hwr
  · intro k
    obtain ⟨j, hj⟩ : ∃ j, shardIndex w.agg k = some j := ⟨_, shardIndex_eq w.agg k hne⟩
    have hj' := (shardIndex_congr a1 w.agg k hlen).trans hj
    simp only
    have hs := hsum k
    rw [residentCount_eq _ k _ hj] at hs
    rw [residentCount_eq _ k _ hj', hnew _ k hj, callsFor_append]
    push_cast
    linarith
  · intro i k v hv
    simp only at hv
    rw [callsFor_append]
    rw [hlive i k] at hv
    split_ifs at hv with hc
    · simp only [Option.some.injEq] at hv
      have h1 := hold i k
      have h2 := hcl k
      have h3 := hone k
      have hw : wrap64 ((liveCount w.agg i k).getD 0 + callsFor k [(b, t)])
          = (liveCount w.agg i k).getD 0 + callsFor k [(b, t)] := by
        apply wrap64_of_isInt64
        unfold isInt64
        constructor <;> omega
      rw [hw] at hv
      have h4 : callsFor k [(b, t)] ≠ 0 := hc.2
      push_cast
      omega
    · have := hbd i k v hv
      push_cast
      omega

/-- A whole cycle with no `Inc` inside keeps the bookkeeping invariant. -/
theorem Conserved_tick (w : World) (incs : List (Int × Time)) (hinv : Conserved w incs)
    (upsert : List AggregateRow → Bool) :
    ∃ w', applyEvent w (Event.tick upsert []) = some w' ∧ Conserved w' incs := by
  obtain ⟨hne, hwr, hsum, hbd⟩ := hinv
  have hrun := runCycle_eq upsert [] w.agg w.agg rfl
  by_cases hb : (buildBatchSnapshot w.agg).length = 0
  · rw [if_pos hb] at hrun
    refine ⟨{ agg := w.agg, accepted := w.accepted ++ [] }, ?_, hne, hwr, ?_, hbd⟩
    · simp only [applyEvent, hrun, List.filter_nil]
    · intro k
      simp only [List.append_nil]
      exact hsum k
  · by_cases hu : upsert (buildBatchSnapshot w.agg) = false
    · rw [if_neg hb, if_pos hu] at hrun
      refine ⟨{ agg := w.agg, accepted := w.accepted ++ [] }, ?_, hne, hwr, ?_, hbd⟩
      · simp only [applyEvent, hrun, List.filter_cons, hu, Bool.false_eq_true, if_false,
          List.filter_nil]
      · intro k
        simp only [List.append_nil]
        exact hsum k
    · rw [if_neg hb, if_neg hu] at hrun
      have hu' : upsert (buildBatchSnapshot w.agg) = true := by simpa using hu
      have hgone : ∀ i k, liveCount
          { w.agg with shards := commitShards (snapshotShards w.agg.shards) w.agg.shards }
          i k = none := by
        intro i k
        rw [liveCount_committed w.agg w.agg _ rfl rfl i k]
        split_ifs with h0
        · exact h0
        · rfl
      have hlen : (commitShards (snapshotShards w.agg.shards) w.agg.shards).length
          = w.agg.shards.length := commitShards_length _ _
      refine ⟨{ agg := { w.agg with
                  shards := commitShards (snapshotShards w.agg.shards) w.agg.shards },
                accepted := w.accepted ++ [buildBatchSnapshot w.agg] }, ?_, ?_, ?_, ?_, ?_⟩
      · simp only [applyEvent, hrun, List.filter_cons, hu', if_true, List.filter_nil]
      · intro h0
        simp only at h0
        rw [h0] at hlen
        exact hne (List.length_eq_zero.mp hlen.symm)
      · exact WellRouted_committed w.agg w.agg _ rfl rfl hwr
      · intro k
        obtain ⟨j, hj⟩ : ∃ j, shardIndex w.agg k = some j := ⟨_, shardIndex_eq w.agg k hne⟩
        have hj' := (shardIndex_congr
          { w.agg with shards := commitShards (snapshotShards w.agg.shards) w.agg.shards }
          w.agg k hlen).trans hj
        have hs := hsum k
        simp only
        rw [residentCount_eq _ k _ hj', hgone, acceptedFor_append,
          acceptedFor_batch w.agg hne hwr k]
        simp only [Option.getD_none, add_zero]
        linarith
      · intro i k v hv
        simp only at hv
        rw [hgone] at hv
        cases hv

theorem incsOf_cons (e : Event) (es : List Event) :
    incsOf (e :: es) = incsOf [e] ++ incsOf es := by
  simp [incsOf]

/-- A history without interleaving keeps the bookkeeping invariant and never
panics, as long as the number of `Inc` calls stays below 2^63. -/
theorem Conserved_run (es : List Event) (w : World) (incs : List (Int × Time))
    (hni : NotInterleaved es) (hinv : Conserved w incs)
    (hlt : (incs.length : Int) + (incsOf es).length < 2 ^ 63) :
    ∃ w', runEvents es w = some w' ∧ Conserved w' (incs ++ incsOf es) := by
  induction es generalizing w incs with
  | nil =>
    refine ⟨w, rfl, ?_⟩
    simpa [incsOf] using hinv
  | cons e es ih =>
    have hni' : NotInterleaved es := fun x hx => hni x (List.mem_cons_of_mem _ hx)
    have he := hni e (List.mem_cons_self _ _)
    rw [incsOf_cons] at hlt ⊢
    rw [runEvents_cons]
    cases e with
    | inc b t =>
      have h1 : incsOf [Event.inc b t] = [(b, t)] := by simp [incsOf]
      rw [h1] at hlt ⊢
      simp only [List.length_append, List.length_cons, List.length_nil] at hlt
      obtain ⟨w1, hw1, hinv1⟩ := Conserved_inc w incs hinv b t (by push_cast at hlt ⊢; omega)
      rw [hw1]
      obtain ⟨w', hw', hinv'⟩ := ih w1 (incs ++ [(b, t)]) hni' hinv1
        (by simp only [List.length_append, List.length_cons, List.length_nil]
            push_cast at hlt ⊢; omega)
      refine ⟨w', hw', ?_⟩
      rw [← List.append_assoc]
      exact hinv'
    | tick upsert during =>
      simp only at he
      subst he
      have h1 : incsOf [Event.tick upsert []] = [] := by simp [incsOf]
      rw [h1] at hlt ⊢
      simp only [List.nil_append] at hlt ⊢
      obtain ⟨w1, hw1, hinv1⟩ := Conserved_tick w incs hinv upsert
      rw [hw1]
      exact ih w1 incs hni' hinv1 hlt
    | stop upsert =>
      simp only at he

/-! ## C14: conservation of counts without interleaving -/

/-- C14. For every history of `Inc` calls and whole periodic cycles (writer
succeeding or failing, no `Inc` between snapshot and commit, no `Stop`) with
fewer than 2^63 `Inc` calls, starting from a freshly constructed aggregator:
the history runs without a panic, and afterwards, for every key, the counts of
that key in the batches the writer accepted plus its resident count (0 when
absent) equal the number of `Inc` calls made for it; every resident count is at
least 1; and a key is resident only in the shard the router assigns to it. -/
theorem counts_conserved (shardCount flushEvery : Int) (es : List Event)
    (hni : NotInterleaved es) (hlt : ((incsOf es).length : Int) < 2 ^ 63) :
    ∃ w, runEvents es (freshWorld shardCount flushEvery) = some w ∧
      (∀ k : key, acceptedFor k w.accepted + residentCount w.agg k = callsFor k (incsOf es)) ∧
      (∀ (i : Nat) (k : key) (v : Int), liveCount w.agg i k = some v → 1 ≤ v) ∧
      (∀ (i : Nat) (k : key), liveCount w.agg i k ≠ none → shardIndex w.agg k = some i) := by
  obtain ⟨w, hw, hinv⟩ := Conserved_run es (freshWorld shardCount flushEvery) [] hni
    (Conserved_fresh shardCount flushEvery) (by simpa using hlt)
  simp only [List.nil_append] at hinv
  obtain ⟨-, hwr, hsum, hbd⟩ := hinv
  exact ⟨w, hw, hsum, fun i k v hv => (hbd i k v hv).1, hwr⟩

/-- A concrete instance of `counts_conserved`: `sampleQuietHistory` on four
shards. -/
theorem counts_conserved_witness :
    ∃ w, runEvents sampleQuietHistory (freshWorld 4 Second) = some w ∧
      (∀ k : key, acceptedFor k w.accepted + residentCount w.agg k
        = callsFor k (incsOf sampleQuietHistory)) ∧
      (∀ (i : Nat) (k : key) (v : Int), liveCount w.agg i k = some v → 1 ≤ v) ∧
      (∀ (i : Nat) (k : key), liveCount w.agg i k ≠ none → shardIndex w.agg k = some i) :=
  counts_conserved 4 Second sampleQuietHistory
    (by
      intro e he
      simp only [sampleQuietHistory, List.mem_cons, List.mem_singleton, List.not_mem_nil,
        or_false] at he
      rcases he with rfl | rfl | rfl | rfl | rfl | rfl <;> simp)
    (by decide)

/-! ## The minute bucket on the 64-bit representation -/

theorem tdiv_neg_of_nonneg (a b : Int) (ha : 0 ≤ a) (hb : 0 ≤ b) :
    Int.tdiv (-a) b = -(a / b) := by
  rw [Int.neg_tdiv, Int.tdiv_eq_ediv ha hb]

theorem tmod_neg_of_nonneg (a b : Int) (ha : 0 ≤ a) (hb : 0 ≤ b) :
    Int.tmod (-a) b = -(a % b) := by
  rw [Int.tmod_def, tdiv_neg_of_nonneg a b ha hb, Int.emod_def]
  ring

/-- The remainder of `div(t, time.Minute)`: the seconds past the minute (in
the floor sense, also before year 1) and the nanoseconds. -/
theorem divRem_minute (t : Time64) (hv : t.Valid) (hlo : -9223372036854775808 < t.ext) :
    divRem t Minute = t.ext % 60 * 1000000000 + t.nsec := by
  obtain ⟨⟨-, hhi⟩, hn0, hn1⟩ := hv
  have e1 : Int.tmod (60 * 1000000000) 1000000000 = 0 := by decide
  have e2 : Int.tdiv (60 * 1000000000) 1000000000 = 60 := by decide
  have hA : ¬ ((60 : Int) * 1000000000 < 1000000000) := by decide
  unfold divRem
  simp only [Minute, Second, e1, e2, hA, false_and, if_false, if_true]
  by_cases hneg : t.ext < 0
  · have w1 : wrap64 (-t.ext) = -t.ext := wrap64_of_isInt64 _ (by unfold isInt64; omega)
    simp only [hneg, if_true, true_and, w1]
    by_cases hn : t.nsec = 0
    · have h1 : ¬ (-t.nsec < 0) := by omega
      simp only [h1, if_false]
      rw [Int.tmod_eq_emod (by omega) (by decide)]
      split_ifs <;> omega
    · have h1 : -t.nsec < 0 := by omega
      have w2 : wrap64 (-t.ext - 1) = -t.ext - 1 :=
        wrap64_of_isInt64 _ (by unfold isInt64; omega)
      simp only [h1, if_true, w2]
      rw [Int.tmod_eq_emod (by omega) (by decide)]
      split_ifs <;> omega
  · simp only [hneg, if_false, false_and]
    rw [Int.tmod_eq_emod (by omega) (by decide)]

theorem addSec_back (ext q : Int) (hq : 0 ≤ q) (hlo : -9223372036854775808 ≤ ext - q)
    (hhi : ext < 9223372036854775808) : addSec ext (-q) = ext - q := by
  have w : wrap64 (ext + -q) = ext - q := by
    rw [show ext + -q = ext - q by ring]
    exact wrap64_of_isInt64 _ (by unfold isInt64; omega)
  unfold addSec
  rw [w]
  have h1 : ¬ (ext - q > ext) := by omega
  have h2 : ¬ (-q > 0) := by omega
  simp [h1, h2]

/-- `t.Truncate(time.Minute)` when the start of the minute is still an `int64`
second: the seconds rounded down to a multiple of sixty, no nanoseconds. -/
theorem Truncate_minute (t : Time64) (hv : t.Valid)
    (hlo : -9223372036854775808 + 60 ≤ t.ext) :
    t.Truncate Minute = { ext := t.ext - t.ext % 60, nsec := 0, loc := t.loc } := by
  have hrem := divRem_minute t hv (by omega)
  obtain ⟨⟨-, hhi⟩, hn0, hn1⟩ := hv
  unfold Time64.Truncate
  rw [if_neg (by simp [Minute, Second]), hrem]
  have hq0 : 0 ≤ t.ext % 60 := Int.emod_nonneg _ (by decide)
  have hq1 : t.ext % 60 < 60 := Int.emod_lt_of_pos _ (by decide)
  have hm : Int.tmod (-(t.ext % 60 * 1000000000 + t.nsec)) 1000000000 = -t.nsec := by
    rw [tmod_neg_of_nonneg _ _ (by omega) (by decide)]
    omega
  have hd : Int.tdiv (-(t.ext % 60 * 1000000000 + t.nsec)) 1000000000 = -(t.ext % 60) := by
    rw [tdiv_neg_of_nonneg _ _ (by omega) (by decide)]
    omega
  unfold Time64.Add
  rw [hm, hd]
  rw [if_neg (by omega), if_neg (by omega), addSec_back _ _ hq0 (by omega) hhi]
  congr 1
  omega

theorem minuteUTC64_eq (t : Time64) (hv : t.Valid)
    (hlo : -9223372036854775808 + 60 ≤ t.ext) :
    minuteUTC64 t = { ext := t.ext - t.ext % 60, nsec := 0, loc := Location.UTC } := by
  unfold minuteUTC64
  rw [Truncate_minute (t.UTC) hv hlo]
  rfl

/-- From Unix second -9223372036854775800 on, `bucket` on the 64-bit
representation is the floor of the Unix second over sixty. -/
theorem bucket64_eq_floor (t : Time64) (hv : t.Valid)
    (hlo : -9223372036854775800 ≤ t.ext - unixToInternal) :
    bucket64 t = (t.ext - unixToInternal) / 60 := by
  have hhi := hv.1.2
  unfold unixToInternal at hlo ⊢
  unfold bucket64
  rw [minuteUTC64_eq t hv (by omega)]
  unfold Time64.Unix
  simp only [unixToInternal]
  rw [wrap64_of_isInt64 _ (by unfold isInt64; omega)]
  rw [Int.tdiv_eq_ediv_of_dvd (by omega)]
  omega

/-- From Unix second -9223372036854775800 on, the 64-bit representation and
the unbounded model compute the same bucket. -/
theorem bucket64_eq_bucket (t : Time64) (hv : t.Valid)
    (hlo : -9223372036854775800 ≤ t.ext - unixToInternal) :
    bucket64 t = bucket t.instant := by
  have hn0 := hv.2.1
  have hn1 := hv.2.2
  rw [bucket64_eq_floor t hv hlo, bucket_eq_floor]
  simp only [Time64.instant, Time.Unix, Second, unixToInternal]
  omega

/-- On key minutes whose Unix second fits, the `TS` of the 64-bit layer denotes
the `TS` of `rowOf`. -/
theorem rowTS64_instant (k : key) (v : Int)
    (hlo : -9223372036854775808 ≤ k.minute * 60)
    (hhi : k.minute * 60 + unixToInternal < 9223372036854775808) :
    (rowTS64 k.minute).instant = (rowOf k v).TS := by
  unfold unixToInternal at hhi
  unfold rowTS64 unixTime64 Time64.UTC Time64.instant rowOf unixTime Time.UTC
  simp only [unixToInternal, Second]
  rw [wrap64_of_isInt64 (k.minute * 60) (by unfold isInt64; omega)]
  rw [wrap64_of_isInt64 _ (by unfold isInt64; omega)]
  simp

/-- The checked constructor returns the aggregator of `NewAggregator` whenever
the allocation is accepted. -/
theorem NewAggregatorChecked_eq (maxAlloc : Nat) (shardCount flushEvery : Int)
    (h : makesliceOK maxAlloc (if shardCount ≤ 0 then 1 else shardCount) = true) :
    NewAggregatorChecked maxAlloc shardCount flushEvery
      = some (NewAggregator shardCount flushEvery) := by
  unfold NewAggregatorChecked
  rw [if_pos h]

/-! ## C9: minute bucket round trip -/

/-- C9, as stated, fails at the earliest Unix second: for
`t = time.Unix(math.MinInt64, 0)` the start of the minute lies below the
`int64` Unix seconds, `Unix()` wraps to 9223372036854775756, the bucket is
153722867280912929, and the `TS` built from it lies 68 seconds before `t`, so
it is neither `t` truncated to its minute nor within sixty seconds of `t`. -/
theorem bucket_wraps_at_earliest_unix :
    earliestUnix.Valid ∧
    (minuteUTC64 earliestUnix).Unix = 9223372036854775756 ∧
    bucket64 earliestUnix = 153722867280912929 ∧
    (rowTS64 153722867280912929).ext = earliestUnix.ext - 68 ∧
    rowTS64 (bucket64 earliestUnix) ≠ minuteUTC64 earliestUnix ∧
    ¬ (earliestUnix.instant.ns < (rowTS64 153722867280912929).instant.ns + Minute) :=
  ⟨by decide, by decide, by decide, by decide, by decide, by decide⟩

/-- C9, amended. For every timestamp `t` from Unix second -9223372036854775800
on (the first whole minute whose Unix second is an `int64`; any location, also
before the Unix epoch and before year 1), the `TS` of the row built from
`bucket(t)`, `time.Unix(bucket(t)*60, 0).UTC()`, is `t` truncated to the start
of its UTC minute: it equals `minuteUTC(t)`, is in UTC, has no nanoseconds and
a Unix second that is `bucket(t)` times sixty, and `TS <= t < TS + 60s`; and two
such timestamps get the same key minute exactly when they lie in the same UTC
minute. -/
theorem bucket64_round_trip (t : Time64) (hv : t.Valid)
    (hlo : -9223372036854775800 ≤ t.ext - unixToInternal) :
    rowTS64 (bucket64 t) = minuteUTC64 t ∧
    (rowTS64 (bucket64 t)).loc = Location.UTC ∧
    (rowTS64 (bucket64 t)).nsec = 0 ∧
    (rowTS64 (bucket64 t)).Unix = bucket64 t * 60 ∧
    (rowTS64 (bucket64 t)).instant.ns ≤ t.instant.ns ∧
    t.instant.ns < (rowTS64 (bucket64 t)).instant.ns + Minute ∧
    ∀ u : Time64, u.Valid → -9223372036854775800 ≤ u.ext - unixToInternal →
      (bucket64 t = bucket64 u ↔ sameUTCMinute64 t u) := by
  have hb := bucket64_eq_floor t hv hlo
  have hm := minuteUTC64_eq t hv (by unfold unixToInternal at hlo; omega)
  obtain ⟨⟨-, hhi⟩, hn0, hn1⟩ := hv
  unfold unixToInternal at hlo hb
  have hts : rowTS64 (bucket64 t)
      = { ext := t.ext - t.ext % 60, nsec := 0, loc := Location.UTC } := by
    unfold rowTS64 unixTime64 Time64.UTC
    rw [hb]
    simp only [unixToInternal]
    rw [wrap64_of_isInt64 ((t.ext - 62135596800) / 60 * 60) (by unfold isInt64; omega)]
    rw [wrap64_of_isInt64 _ (by unfold isInt64; omega)]
    congr 1
    omega
  refine ⟨by rw [hts, hm], by rw [hts], by rw [hts], ?_, ?_, ?_, ?_⟩
  · rw [hts, hb]
    unfold Time64.Unix
    simp only [unixToInternal]
    rw [wrap64_of_isInt64 _ (by unfold isInt64; omega)]
    omega
  · rw [hts]
    simp only [Time64.instant]
    omega
  · rw [hts]
    simp only [Time64.instant, Minute, Second]
    omega
  · intro u hu hulo
    rw [hb, bucket64_eq_floor u hu hulo]
    unfold sameUTCMinute64 unixToInternal
    omega

/-- A concrete instance of `bucket64_round_trip`: five nanoseconds into second
42 of 2025-10-19 00:29 UTC, in the local zone. -/
theorem bucket64_round_trip_witness :
    rowTS64 (bucket64 { ext := 63896430582, nsec := 5, loc := Location.Local })
      = minuteUTC64 { ext := 63896430582, nsec := 5, loc := Location.Local } ∧
    (rowTS64 (bucket64 { ext := 63896430582, nsec := 5, loc := Location.Local })).loc
      = Location.UTC ∧
    (rowTS64 (bucket64 { ext := 63896430582, nsec := 5, loc := Location.Local })).nsec = 0 ∧
    (rowTS64 (bucket64 { ext := 63896430582, nsec := 5, loc := Location.Local })).Unix
      = bucket64 { ext := 63896430582, nsec := 5, loc := Location.Local } * 60 ∧
    (rowTS64 (bucket64 { ext := 63896430582, nsec := 5, loc := Location.Local })).instant.ns
      ≤ (Time64.instant { ext := 63896430582, nsec := 5, loc := Location.Local }).ns ∧
    (Time64.instant { ext := 63896430582, nsec := 5, loc := Location.Local }).ns
      < (rowTS64 (bucket64
          { ext := 63896430582, nsec := 5, loc := Location.Local })).instant.ns + Minute ∧
    ∀ u : Time64, u.Valid → -9223372036854775800 ≤ u.ext - unixToInternal →
      (bucket64 { ext := 63896430582, nsec := 5, loc := Location.Local } = bucket64 u
        ↔ sameUTCMinute64 { ext := 63896430582, nsec := 5, loc := Location.Local } u) :=
  bucket64_round_trip { ext := 63896430582, nsec := 5, loc := Location.Local }
    (by decide) (by decide)

/-! ## C8: construction -/

/-- C8, as stated, fails for shard counts that `make` cannot allocate: with
`shardCount` 2^63 - 1 (which `Parse` yields for `SHARDS=99999999999999999999`)
or 2^62 the sixteen bytes per shard overflow the address space, and
`make([]shard, shardCount)` panics, on every platform. -/
theorem NewAggregator_panics_on_huge_count :
    mustInt "99999999999999999999" = 9223372036854775807 ∧
    NewAggregatorChecked 281474976710656 9223372036854775807 1000000000 = none ∧
    NewAggregatorChecked 281474976710656 4611686018427387904 1000000000 = none ∧
    ∀ maxAlloc : Nat, NewAggregatorChecked maxAlloc 9223372036854775807 1000000000 = none := by
  refine ⟨by decide, rfl, rfl, ?_⟩
  intro maxAlloc
  unfold NewAggregatorChecked makesliceOK shardSize
  simp

/-- C8, amended. For every `flushEvery` and every `shardCount` whose shard
slice `make` accepts (sixteen bytes per shard, within the address space and the
allocation limit `maxAlloc` of the platform), `NewAggregator` returns an
aggregator with `shardCount` shards when `shardCount > 0` and one shard
otherwise, with flush interval `flushEvery` when `flushEvery > 0` and one second
(10^9 ns) otherwise, with every shard map empty and `stopCh` open. -/
theorem NewAggregator_defaults (maxAlloc : Nat) (shardCount flushEvery : Int)
    (hfit : 16 * (if shardCount > 0 then shardCount else 1) ≤ (maxAlloc : Int))
    (hptr : 16 * (if shardCount > 0 then shardCount else 1) < 18446744073709551616) :
    ∃ a, NewAggregatorChecked maxAlloc shardCount flushEvery = some a ∧
      (a.shards.length : Int) = (if shardCount > 0 then shardCount else 1) ∧
      a.flushEvery = (if flushEvery > 0 then flushEvery else 1000000000) ∧
      (∀ sh ∈ a.shards, sh.entries = []) ∧
      a.stopClosed = false := by
  have hok : makesliceOK maxAlloc (if shardCount ≤ 0 then 1 else shardCount) = true := by
    unfold makesliceOK shardSize
    simp only [decide_eq_true_eq]
    split_ifs at hfit hptr ⊢ <;> omega
  refine ⟨NewAggregator shardCount flushEvery, ?_, ?_, ?_, ?_, rfl⟩
  · unfold NewAggregatorChecked
    rw [if_pos hok]
  · simp only [NewAggregator, List.length_replicate]
    split_ifs <;> omega
  · simp only [NewAggregator, Second]
    split_ifs <;> first | rfl | omega
  · exact NewAggregator_shards_empty shardCount flushEvery

/-- A concrete instance of `NewAggregator_defaults`: eight shards and a flush
interval of zero on linux/amd64 (`maxAlloc` 2^48). -/
theorem NewAggregator_defaults_witness :
    ∃ a, NewAggregatorChecked 281474976710656 8 0 = some a ∧
      (a.shards.length : Int) = (if (8 : Int) > 0 then 8 else 1) ∧
      a.flushEvery = (if (0 : Int) > 0 then 0 else 1000000000) ∧
      (∀ sh ∈ a.shards, sh.entries = []) ∧
      a.stopClosed = false :=
  NewAggregator_defaults 281474976710656 8 0 (by decide) (by decide)

end ClickCounter
